import Mathlib

/-!
Verification of the Kokoro-TTS-spanish grapheme-to-phoneme pipeline and
phoneme tokenizer.

The development shallowly embeds the two Python source files:
  * `g2p_lib.py` — Spanish text → IPA-like transcription (`g2p` and helpers);
  * `tts-kokoro-esp.py` — vocabulary table (`get_phoneme_map`) and the greedy
    longest-match tokenizer (`tokenize_ipa`).

Strings are modelled as `List Char` (one entry per Unicode code point, which
matches Python's `str` indexing and `len`).  Python's string/regex primitives
(`str.replace`, `re.sub` with look-ahead or look-behind of bounded width,
`str.strip`, `str.split`, `" ".flatten`) are embedded as small recursive
functions with exactly the non-overlapping left-to-right semantics of the
originals; each is documented at its definition.

Unicode NFC normalization (`unicodedata.normalize('NFC', ...)`) is modelled
as the identity: the full Unicode composition tables are out of scope, and
every property proved below is proved for all input strings, hence holds for
the image of any normalizer.  Python's `str.lower` is modelled on the
alphabet the pipeline manipulates (ASCII letters plus the Spanish accented
letters); it is the identity elsewhere.
-/

set_option maxRecDepth 16000

/-! ## Character classes (`g2p_lib.py` lines 16-26) -/

/-- `VOWELS = "aeiou"`. -/
def VOWL : List Char := ['a', 'e', 'i', 'o', 'u']

/-- `VOWELS_ACCENTED = "áéíóú"`. -/
def ACCL : List Char := ['á', 'é', 'í', 'ó', 'ú']

/-- `ALL_VOWELS = VOWELS + VOWELS_ACCENTED`. -/
def ALLVL : List Char := VOWL ++ ACCL

/-- `ACUTE_MAP` (`str.maketrans(VOWELS_ACCENTED, VOWELS)`) as a character
function: accented vowels to their plain equivalents, identity elsewhere. -/
def acuteMap (c : Char) : Char :=
  if c = 'á' then 'a'
  else if c = 'é' then 'e'
  else if c = 'í' then 'i'
  else if c = 'ó' then 'o'
  else if c = 'ú' then 'u'
  else c

/-- `ACCENT_VOWEL_MAP = {'a': 'á', ...}`; total extension by the identity
(the source only looks up plain vowels). -/
def accentOf (c : Char) : Char :=
  if c = 'a' then 'á'
  else if c = 'e' then 'é'
  else if c = 'i' then 'í'
  else if c = 'o' then 'ó'
  else if c = 'u' then 'ú'
  else c

/-- `_PUNCT_CHARS = ',.;:¡!¿?()[]{}"«»“”—–…'` (`g2p_lib.py` line 24). -/
def PUNCTL : List Char :=
  [',', '.', ';', ':', '¡', '!', '¿', '?', '(', ')', '[', ']',
   '{', '}', '"', '«', '»', '“', '”', '—', '–', '…']

/-- The whitespace characters recognised by Python's `str.strip` and by the
regex class `\s` on `str` patterns (ASCII whitespace plus the Unicode
space/separator characters). -/
def wsChars : List Char :=
  ['\t', '\n', '\u000B', '\u000C', '\r', '\u001C', '\u001D', '\u001E',
   '\u001F', ' ', '\u0085', '\u00A0', '\u1680', '\u2000', '\u2001',
   '\u2002', '\u2003', '\u2004', '\u2005', '\u2006', '\u2007', '\u2008',
   '\u2009', '\u200A', '\u2028', '\u2029', '\u202F', '\u205F', '\u3000']

/-- Characters with an explicit lowercase image in the model of
`str.lower`: ASCII uppercase plus the accented Spanish uppercase letters. -/
def lowerPairs : List (Char × Char) :=
  [('A', 'a'), ('B', 'b'), ('C', 'c'), ('D', 'd'), ('E', 'e'), ('F', 'f'),
   ('G', 'g'), ('H', 'h'), ('I', 'i'), ('J', 'j'), ('K', 'k'), ('L', 'l'),
   ('M', 'm'), ('N', 'n'), ('O', 'o'), ('P', 'p'), ('Q', 'q'), ('R', 'r'),
   ('S', 's'), ('T', 't'), ('U', 'u'), ('V', 'v'), ('W', 'w'), ('X', 'x'),
   ('Y', 'y'), ('Z', 'z'), ('Á', 'á'), ('É', 'é'), ('Í', 'í'), ('Ó', 'ó'),
   ('Ú', 'ú'), ('Ñ', 'ñ'), ('Ü', 'ü')]

/-- Model of Python `str.lower` on a single character (see the header note:
identity outside the modelled alphabet). -/
def pyLower (c : Char) : Char :=
  match (lowerPairs.find? (fun p => p.1 = c)) with
  | some p => p.2
  | none => c

/-! ## Python string-primitive combinators

Each combinator mirrors one Python primitive with its exact non-overlapping
left-to-right scanning semantics.  Patterns in the source always have a
fixed width of 1, 2 or 3 characters, so one combinator is provided per
width. -/

/-- Boolean prefix test (`str.startswith`). -/
def prefixOfL : List Char → List Char → Bool
  | [], _ => true
  | _ :: _, [] => false
  | a :: as, b :: bs => a = b && prefixOfL as bs

/-- `s.replace(a, rep)` for a single-character pattern `a`: non-overlapping
left-to-right replacement. -/
def replace1 (a : Char) (rep : List Char) : List Char → List Char
  | [] => []
  | c :: t => if c = a then rep ++ replace1 a rep t else c :: replace1 a rep t

/-- `s.replace(ab, rep)` for a two-character pattern: non-overlapping
left-to-right replacement, scanning resumes after a match. -/
def replace2 (a b : Char) (rep : List Char) : List Char → List Char
  | [] => []
  | [c] => [c]
  | c :: d :: t =>
    if c = a ∧ d = b then rep ++ replace2 a b rep t
    else c :: replace2 a b rep (d :: t)

/-- `s.replace(abc, rep)` for a three-character pattern: non-overlapping
left-to-right replacement, scanning resumes after a match. -/
def replace3 (a b c : Char) (rep : List Char) : List Char → List Char
  | [] => []
  | [x] => [x]
  | [x, y] => [x, y]
  | x :: y :: z :: t =>
    if x = a ∧ y = b ∧ z = c then rep ++ replace3 a b c rep t
    else x :: replace3 a b c rep (y :: z :: t)

/-- `re.sub(a(?=L), rep, s)` for a single-character pattern with a
look-ahead predicate `look` on the remaining tail (the look-ahead is not
consumed: scanning resumes right after the matched character). -/
def subLA1 (a : Char) (look : List Char → Bool) (rep : List Char) :
    List Char → List Char
  | [] => []
  | c :: t =>
    if c = a ∧ look t then rep ++ subLA1 a look rep t
    else c :: subLA1 a look rep t

/-- `re.sub(ab(?=L), rep, s)` for a two-character pattern with a look-ahead
predicate on the tail. -/
def subLA2 (a b : Char) (look : List Char → Bool) (rep : List Char) :
    List Char → List Char
  | [] => []
  | [c] => [c]
  | c :: d :: t =>
    if c = a ∧ d = b ∧ look t then rep ++ subLA2 a b look rep t
    else c :: subLA2 a b look rep (d :: t)

/-- Look-ahead `(?=[eéií])` used by the `g/c/gu/qu` rules. -/
def frontLA (t : List Char) : Bool :=
  match t with
  | c :: _ => c ∈ ['e', 'é', 'i', 'í']
  | [] => false

/-- Look-ahead `(?=[ALL_VOWELS])`. -/
def allVowLA (t : List Char) : Bool :=
  match t with
  | c :: _ => c ∈ ALLVL
  | [] => false

/-- `re.sub(r"([lns])r", r"\1RRR", s)` (`g2p_lib.py` line 117): an `r`
directly after `l`, `n` or `s` is replaced by the placeholder `RRR`; the
match consumes both characters. -/
def subLnsR : List Char → List Char
  | [] => []
  | [c] => [c]
  | c :: d :: t =>
    if (c = 'l' ∨ c = 'n' ∨ c = 's') ∧ d = 'r' then
      c :: 'R' :: 'R' :: 'R' :: subLnsR t
    else c :: subLnsR (d :: t)

/-- `re.sub(r"^y(?=[ALL_VOWELS])", "ʝ", s)`: anchored, so at most the first
character is rewritten. -/
def ySubInitial (s : List Char) : List Char :=
  match s with
  | [] => []
  | c :: t => if c = 'y' ∧ allVowLA t then 'ʝ' :: t else c :: t

/-- Scanner for `re.sub(r"(?<=[^ALL_VOWELS])y(?=[ALL_VOWELS])", "ʝ", s)`;
`prev` is the previous character of the original string (look-behinds
inspect the subject string, not the replacement text). -/
def ySubConsAux (prev : Char) : List Char → List Char
  | [] => []
  | c :: t =>
    if c = 'y' ∧ prev ∉ ALLVL ∧ allVowLA t then 'ʝ' :: ySubConsAux 'y' t
    else c :: ySubConsAux c t

/-- `re.sub(r"(?<=[^ALL_VOWELS])y(?=[ALL_VOWELS])", "ʝ", s)`: the first
position has no look-behind room and never matches. -/
def ySubCons (s : List Char) : List Char :=
  match s with
  | [] => []
  | c :: t => c :: ySubConsAux c t

/-- Scanner for `re.sub(r"(?<=[ALL_VOWELS])y$", "j", s)`: only the final
position can match, and only when the previous character is a vowel. -/
def ySubFinalAux (prev : Char) : List Char → List Char
  | [] => []
  | [c] => if c = 'y' ∧ prev ∈ ALLVL then ['j'] else [c]
  | c :: d :: t => c :: ySubFinalAux c (d :: t)

/-- `re.sub(r"(?<=[ALL_VOWELS])y$", "j", s)`: a word-final `y` after a vowel
becomes the glide `j`; the first position has no look-behind room. -/
def ySubFinal (s : List Char) : List Char :=
  match s with
  | [] => []
  | c :: t => c :: ySubFinalAux c t

/-- Scanner for a single-character look-behind substitution
`re.sub(r"(?<=L)a", rep, s)` (used by the glide postprocessor); `prev` is
the previous character of the subject string. -/
def subLB1Aux (a : Char) (lookb : Char → Bool) (rep : Char) (prev : Char) :
    List Char → List Char
  | [] => []
  | c :: t =>
    if c = a ∧ lookb prev then rep :: subLB1Aux a lookb rep c t
    else c :: subLB1Aux a lookb rep c t

/-- `re.sub(r"(?<=L)a", rep, s)`: the first position never matches. -/
def subLB1 (a : Char) (lookb : Char → Bool) (rep : Char) (s : List Char) :
    List Char :=
  match s with
  | [] => []
  | c :: t => c :: subLB1Aux a lookb rep c t

/-- Scanner for `re.sub(r'\s+', ' ', s)`: every maximal whitespace run
collapses to one space.  The flag records whether the previous character was
whitespace (i.e. we are inside a run that already emitted its space). -/
def collapseWsAux (inRun : Bool) : List Char → List Char
  | [] => []
  | c :: t =>
    if c ∈ wsChars then
      if inRun then collapseWsAux true t else ' ' :: collapseWsAux true t
    else c :: collapseWsAux false t

/-- `re.sub(r'\s+', ' ', s)`. -/
def collapseWs (s : List Char) : List Char := collapseWsAux false s

/-- Drop the matching suffix (helper for `str.strip`). -/
def dropTrailing (p : Char → Bool) (s : List Char) : List Char :=
  (s.reverse.dropWhile p).reverse

/-- Python `str.strip` semantics generalised over the stripped class:
remove the longest prefix and suffix of characters satisfying `p`. -/
def pyStripP (p : Char → Bool) (s : List Char) : List Char :=
  dropTrailing p (s.dropWhile p)

/-- `text.split(" ")`: split on every single space character; consecutive
separators produce empty segments, and the empty string yields one empty
segment — exactly Python's `str.split` with an explicit separator. -/
def pySplitSpace : List Char → List (List Char)
  | [] => [[]]
  | c :: t =>
    if c = ' ' then [] :: pySplitSpace t
    else
      match pySplitSpace t with
      | [] => [[c]]
      | h :: r => (c :: h) :: r

/-- `" ".flatten(toks)`. -/
def joinSpace : List (List Char) → List Char
  | [] => []
  | [t] => t
  | t :: rest => t ++ ' ' :: joinSpace rest

/-! ## `g2p_lib.py`: the grapheme-to-phoneme pipeline -/

/-- `NASAL_ASSIMILATION = False` (`g2p_lib.py` line 13). -/
def NASAL_ASSIMILATION : Bool := false

/-- `GLIDE_MODE = "safe"` (`g2p_lib.py` line 14). -/
def GLIDE_MODE : List Char := ['s', 'a', 'f', 'e']

/-- `_normalize_nfc` (`g2p_lib.py` line 29): Unicode NFC canonical
composition, modelled as the identity (see the header note). -/
def normalizeNFC (t : List Char) : List Char := t

/-- `normalize_word` (`g2p_lib.py` line 40): `word.lower()`. -/
def normalize_word (w : List Char) : List Char := w.map pyLower

/-- `strip_accents` (`g2p_lib.py` line 43): `s.translate(ACUTE_MAP)`. -/
def strip_accents (s : List Char) : List Char := s.map acuteMap

/-- The punctuation-surrounding pass of `_space_punct` (`g2p_lib.py`
line 34): `re.sub` with a single-character class pattern replaces each
punctuation character `c` by `' ' c ' '`. -/
def surroundPunct : List Char → List Char
  | [] => []
  | c :: t =>
    (if c ∈ PUNCTL then [' ', c, ' '] else [c]) ++ surroundPunct t

/-- `_space_punct` (`g2p_lib.py` lines 32-38): surround punctuation with
spaces, split a literal `...` (replacement `' . . . '`), collapse
whitespace runs and strip. -/
def space_punct (t : List Char) : List Char :=
  pyStripP (· ∈ wsChars)
    (collapseWs
      (replace3 '.' '.' '.' [' ', '.', ' ', '.', ' ', '.', ' ']
        (surroundPunct t)))

/-- The nasal-assimilation substitutions (`g2p_lib.py` lines 58-62); dead
code under `NASAL_ASSIMILATION = False` but embedded for fidelity. -/
def nasalSubs (w : List Char) : List Char :=
  let w := subLA1 'n' (fun t => match t with | c :: _ => c = 'g' | [] => false) ['ŋ'] w
  let w := subLA1 'n' (fun t => match t with | c :: _ => c = 'k' | [] => false) ['ŋ'] w
  let w := subLA1 'n' (fun t => match t with | c :: d :: _ => c = 'q' ∧ d = 'u' | _ => false) ['ŋ'] w
  subLA1 'n' (fun t => match t with
    | c :: d :: _ => c = 'c' ∧ d ∈ ['a', 'o', 'u', 'á', 'ó', 'ú']
    | _ => false) ['ŋ'] w

/-- `map_graphemes`, all rewrites before the rhotic block (`g2p_lib.py`
lines 68-110), in source order. -/
def preRhotic (w : List Char) : List Char :=
  let w := replace2 'c' 'h' ['ʧ'] w
  let w := if prefixOfL ['x'] w then 's' :: w.drop 1 else w
  let w := replace1 'x' ['k', 's'] w
  let w := subLA1 'g' frontLA ['x'] w
  let w := replace1 'j' ['x'] w
  let w := subLA2 'g' 'u' frontLA ['g'] w
  let w := replace2 'g' 'ü' ['g', 'w'] w
  let w := subLA1 'c' frontLA ['s'] w
  let w := replace1 'z' ['s'] w
  let w := replace1 'c' ['k'] w
  let w := subLA2 'q' 'u' frontLA ['k'] w
  let w := replace1 'v' ['b'] w
  let w := subLA2 'h' 'i' allVowLA ['j'] w
  let w := subLA2 'h' 'u' allVowLA ['w'] w
  let w := replace1 'h' [] w
  let w := replace1 'ñ' ['ɲ'] w
  let w := replace2 'l' 'l' ['ʝ'] w
  let w := ySubInitial w
  let w := ySubCons w
  let w := ySubFinal w
  if NASAL_ASSIMILATION ∧ (w.getLast? = some 'n') then
    w.dropLast ++ ['ŋ']
  else w

/-- The rhotic-strengthening block of `map_graphemes` (`g2p_lib.py`
lines 112-119): `rr` → placeholder `RRR`, word-initial `r` → placeholder,
`[lns]r` → the letter plus placeholder, remaining `r` → tap `ɾ`,
placeholder → trill `r`. -/
def rhoticBlock (w : List Char) : List Char :=
  let w := replace2 'r' 'r' ['R', 'R', 'R'] w
  let w := if prefixOfL ['r'] w then 'R' :: 'R' :: 'R' :: w.drop 1 else w
  let w := subLnsR w
  let w := replace1 'r' ['ɾ'] w
  replace3 'R' 'R' 'R' ['r'] w

/-- `map_graphemes` (`g2p_lib.py` lines 47-121). -/
def map_graphemes (word : List Char) : List Char :=
  let w := normalize_word word
  let w := if NASAL_ASSIMILATION then nasalSubs w else w
  if w = ['y'] then ['i']
  else rhoticBlock (preRhotic w)

/-- State-passing scanner behind `vowelGroups`; `i` is the index of the
head of the remaining list in the whole string, `cur` the start index of
the currently open vowel run, if any. -/
def vgAux : List Char → Nat → Option Nat → List (Nat × Nat)
  | [], _, none => []
  | [], i, some s => [(s, i)]
  | c :: t, i, none =>
    if c ∈ ALLVL then vgAux t (i + 1) (some i) else vgAux t (i + 1) none
  | c :: t, i, some s =>
    if c ∈ ALLVL then vgAux t (i + 1) (some s)
    else (s, i) :: vgAux t (i + 1) none

/-- `re.finditer(f"[{ALL_VOWELS}]+", phonemes)` (`g2p_lib.py` line 133):
the list of maximal vowel runs as (start, stop) index pairs. -/
def vowelGroups (p : List Char) : List (Nat × Nat) := vgAux p 0 none

/-- `phonemes.endswith(tuple(VOWELS)) or phonemes.endswith(('n', 's'))`
(`g2p_lib.py` line 137). -/
def endsVNS (p : List Char) : Bool :=
  match p.getLast? with
  | some c => c ∈ VOWL || c = 'n' || c = 's'
  | none => false

/-- The accent loop of `add_stress_if_needed` (`g2p_lib.py` lines 144-148):
accent the first plain vowel in index range `[s, e)`, or return the string
unchanged if there is none. -/
def accentFirstPlain (p : List Char) (s e : Nat) : List Char :=
  match (List.range' s (e - s)).find? (fun j => p.getD j ' ' ∈ VOWL) with
  | some j => p.take j ++ [accentOf (p.getD j ' ')] ++ p.drop (j + 1)
  | none => p

/-- `add_stress_if_needed` (`g2p_lib.py` lines 123-148).  Note that with
`groups.length ≥ 2` the source's clamp `if target_idx < 0: target_idx = 0`
coincides with truncated `Nat` subtraction, used here. -/
def add_stress_if_needed (p : List Char) : List Char :=
  if p.any (fun c => c ∈ ACCL) then p
  else
    let groups := vowelGroups p
    if groups.length ≤ 1 then p
    else
      let target_idx := groups.length - (if endsVNS p then 2 else 1)
      match groups.get? target_idx with
      | some g => accentFirstPlain p g.1 g.2
      | none => p

/-- `apply_glides` (`g2p_lib.py` lines 150-167): the identity unless
`GLIDE_MODE = "full"`. -/
def apply_glides (p : List Char) : List Char :=
  if GLIDE_MODE ≠ ['f', 'u', 'l', 'l'] then p
  else
    let p := subLA1 'i' (fun t => match t with
      | c :: _ => c ∈ ['a', 'e', 'o', 'á', 'é', 'ó'] | [] => false) ['j'] p
    let p := subLA1 'u' (fun t => match t with
      | c :: _ => c ∈ ['a', 'e', 'i', 'o', 'á', 'é', 'í', 'ó'] | [] => false) ['w'] p
    let p := subLB1 'i' (fun c => c ∈ ['a', 'e', 'o', 'á', 'é', 'ó']) 'j' p
    subLB1 'u' (fun c => c ∈ ['a', 'e', 'i', 'o', 'á', 'é', 'í', 'ó']) 'w' p

/-- Index of the first accented vowel (`re.search(r"[áéíóú]", phonemes)`,
`g2p_lib.py` line 175). -/
def firstAccIdx : List Char → Option Nat
  | [] => none
  | c :: t =>
    if c ∈ ACCL then some 0 else (firstAccIdx t).map (· + 1)

/-- `insert_stress_marker_and_clean` (`g2p_lib.py` lines 169-186). -/
def insert_stress_marker_and_clean (p : List Char) : List Char :=
  match firstAccIdx p with
  | none => strip_accents p
  | some pos =>
    let start_pos :=
      if 0 < pos ∧ (p.getD (pos - 1) ' ' = 'j' ∨ p.getD (pos - 1) ' ' = 'w')
      then pos - 1 else pos
    let base := acuteMap (p.getD pos ' ')
    strip_accents
      (p.take start_pos ++ ['ˈ'] ++ (p.drop start_pos).take (pos - start_pos)
        ++ [base] ++ p.drop (pos + 1))

/-- The token loop of `g2p` (`g2p_lib.py` lines 200-212): skip empty
tokens, pass all-punctuation tokens through, run word tokens through the
mapper → stress → glide → finalizer chain. -/
def processToks : List (List Char) → List (List Char)
  | [] => []
  | t :: rest =>
    if t.isEmpty then processToks rest
    else if t.all (fun c => c ∈ PUNCTL) then t :: processToks rest
    else
      insert_stress_marker_and_clean
        (apply_glides (add_stress_if_needed (map_graphemes t)))
        :: processToks rest

/-- The `result` variable of `g2p` (`g2p_lib.py` line 214):
`" ".flatten(out).strip()` over the processed tokens of the normalized text. -/
def g2pResult (text : List Char) : List Char :=
  pyStripP (· ∈ wsChars)
    (joinSpace (processToks (pySplitSpace (space_punct (normalizeNFC text)))))

/-- `g2p` (`g2p_lib.py` lines 189-215). -/
def g2p (text : List Char) : List Char :=
  if text = [] then ['/', '/']
  else
    let result := g2pResult text
    if result = [] then ['/', '/']
    else '/' :: ' ' :: result ++ [' ', '/']

/-! ## `tts-kokoro-esp.py`: vocabulary and greedy tokenizer

Vocabulary keys are Python strings; here they are `List Char`.  A
vocabulary is the association list of a Python dict in insertion order
(keys unique for an actual dict, though nothing below requires it). -/

/-- `get_phoneme_map` (`tts-kokoro-esp.py` lines 18-41): the hardcoded
phoneme-to-id mapping, in source order. -/
def get_phoneme_map : List (List Char × Nat) :=
  [([';'], 1), ([':'], 2), ([','], 3), (['.'], 4), (['!'], 5), (['?'], 6),
   (['—'], 9), (['…'], 10), (['"'], 11), (['('], 12), ([')'], 13),
   (['“'], 14), (['”'], 15), ([' '], 16), (['̃'], 17), (['ʣ'], 18),
   (['ʥ'], 19), (['ʦ'], 20), (['ʨ'], 21), (['ᵝ'], 22), (['ꭧ'], 23),
   (['A'], 24), (['I'], 25), (['O'], 31), (['Q'], 33), (['S'], 35),
   (['T'], 36), (['W'], 39), (['Y'], 41), (['ᵊ'], 42), (['a'], 43),
   (['b'], 44), (['c'], 45), (['d'], 46), (['e'], 47), (['f'], 48),
   (['h'], 50), (['i'], 51), (['j'], 52), (['k'], 53), (['l'], 54),
   (['m'], 55), (['n'], 56), (['o'], 57), (['p'], 58), (['q'], 59),
   (['r'], 60), (['s'], 61), (['t'], 62), (['u'], 63), (['v'], 64),
   (['w'], 65), (['x'], 66), (['y'], 67), (['z'], 68), (['ɑ'], 69),
   (['ɐ'], 70), (['ɒ'], 71), (['æ'], 72), (['β'], 75), (['ɔ'], 76),
   (['ɕ'], 77), (['ç'], 78), (['ɖ'], 80), (['ð'], 81), (['ʤ'], 82),
   (['ə'], 83), (['ɚ'], 85), (['ɛ'], 86), (['ɜ'], 87), (['ɟ'], 90),
   (['g'], 92), (['ɥ'], 99), (['ɨ'], 101), (['ɪ'], 102), (['ʝ'], 103),
   (['ɯ'], 110), (['ɰ'], 111), (['ŋ'], 112), (['ɳ'], 113), (['ɲ'], 114),
   (['ɴ'], 115), (['ø'], 116), (['ɸ'], 118), (['θ'], 119), (['œ'], 120),
   (['ɹ'], 123), (['ɾ'], 125), (['ɻ'], 126), (['ʁ'], 128), (['ɽ'], 129),
   (['ʂ'], 130), (['ʃ'], 131), (['ʈ'], 132), (['ʧ'], 133), (['ʊ'], 135),
   (['ʋ'], 136), (['ʌ'], 138), (['ɣ'], 139), (['ɤ'], 140), (['χ'], 142),
   (['ʎ'], 143), (['ʒ'], 147), (['ʔ'], 148), (['ˈ'], 156), (['ˌ'], 157),
   (['ː'], 158), (['ʰ'], 162), (['ʲ'], 164), (['↓'], 169), (['→'], 171),
   (['↗'], 172), (['↘'], 173), (['ᵻ'], 177)]

/-- The sort order of `sorted(keys, key=len, reverse=True)`
(`tts-kokoro-esp.py` line 60): descending length. -/
def lenGE (a b : List Char) : Prop := b.length ≤ a.length

instance : DecidableRel lenGE := fun a b => Nat.decLe b.length a.length

instance : IsTrans (List Char) lenGE :=
  ⟨fun _ _ _ h1 h2 => Nat.le_trans h2 h1⟩

instance : IsTotal (List Char) lenGE :=
  ⟨fun a b => (Nat.le_total b.length a.length).imp id id⟩

/-- `sorted(keys, key=len, reverse=True)`: Python's sort is stable, and so
is `List.insertionSort`, with the same tie-breaking (earlier original
position first among equal lengths). -/
def sortKeysByLen (keys : List (List Char)) : List (List Char) :=
  keys.insertionSort lenGE

/-- The inner `for k in keys: if k and s.startswith(k, i)` search of
`tokenize_ipa` (`tts-kokoro-esp.py` lines 66-71): the first key in `keys`
that is nonempty and a prefix of the remaining input. -/
def findFirstMatch (keys : List (List Char)) (s : List Char) :
    Option (List Char) :=
  keys.find? (fun k => !k.isEmpty && prefixOfL k s)

/-- The scan loop of `tokenize_ipa` (`tts-kokoro-esp.py` lines 59-76):
starting from the current position, emit the first key of `keys` that is a
nonempty prefix of the rest and advance past it; otherwise record the
current character as unknown and advance one character. -/
def greedyScan (keys : List (List Char)) (s : List Char) :
    List (List Char) × List Char :=
  match h : findFirstMatch keys s with
  | some k =>
    let r := greedyScan keys (s.drop k.length)
    (k :: r.1, r.2)
  | none =>
    match s with
    | [] => ([], [])
    | c :: rest =>
      let r := greedyScan keys rest
      (r.1, c :: r.2)
termination_by s.length
decreasing_by
  · have hp := List.find?_some h
    rw [Bool.and_eq_true] at hp
    obtain ⟨hk, hpre⟩ := hp
    cases k with
    | nil => simp at hk
    | cons a as =>
      cases s with
      | nil => simp [prefixOfL] at hpre
      | cons b bs =>
        simp only [List.length_drop, List.length_cons]
        omega
  · simp


/-- The preprocessing of `tokenize_ipa` (`tts-kokoro-esp.py` lines 48-57):
strip surrounding whitespace, then outer slashes; drop the stress mark
unless it is kept and mapped; rewrite `tʃ` to `ʧ` when only the latter is a
key. -/
def preprocessIpa (ipa_text : List Char)
    (phoneme_to_id : List (List Char × Nat))
    (keep_stress_if_mapped : Bool) : List Char :=
  let s := pyStripP (· ∈ wsChars) ipa_text
  let s := pyStripP (· = '/') s
  let keys := phoneme_to_id.map Prod.fst
  let s := if keep_stress_if_mapped && keys.contains ['ˈ'] then s
           else replace1 'ˈ' [] s
  if keys.contains ['ʧ'] && !keys.contains ['t', 'ʃ'] then
    replace2 't' 'ʃ' ['ʧ'] s
  else s

/-- `tokenize_ipa` (`tts-kokoro-esp.py` lines 44-76): preprocessing
followed by the greedy longest-match scan over the length-sorted keys;
returns (tokens, unknown characters). -/
def tokenize_ipa (ipa_text : List Char)
    (phoneme_to_id : List (List Char × Nat))
    (keep_stress_if_mapped : Bool) : List (List Char) × List Char :=
  greedyScan (sortKeysByLen (phoneme_to_id.map Prod.fst))
    (preprocessIpa ipa_text phoneme_to_id keep_stress_if_mapped)

/-! ## Specification-side definitions

The next definitions follow the words of the specification (not the code)
and exist only to be compared with the embedded code. -/

/-- Modelled from the spec (§4.7): given the candidate keys, the longest
nonempty vocabulary key that is a prefix of the remaining input, if any.
Among keys that match at the same position, equal length forces equality
(two equal-length prefixes of one string coincide), so "the longest" is
well defined; this function picks a maximal-length element of the
matches. -/
def maxByLen : List (List Char) → Option (List Char)
  | [] => none
  | k :: rest =>
    match maxByLen rest with
    | none => some k
    | some m => if m.length ≤ k.length then some k else some m

/-- Modelled from the spec (§4.7): the keys matching at the current
position — nonempty vocabulary keys that are prefixes of the rest. -/
def matchingKeys (keys : List (List Char)) (s : List Char) :
    List (List Char) :=
  keys.filter (fun k => !k.isEmpty && prefixOfL k s)

/-- Modelled from the spec (§4.7): the longest matching key, if any. -/
def longestMatch (keys : List (List Char)) (s : List Char) :
    Option (List Char) :=
  maxByLen (matchingKeys keys s)

/-- Modelled from the spec (§4.7): scan left to right; at each position
emit the longest vocabulary key that is a prefix of the remaining string
and advance by its length; otherwise record the current character as
unmapped, advance one character, and continue (lenient, not fatal). -/
def specGreedy (keys : List (List Char)) (s : List Char) :
    List (List Char) × List Char :=
  match h : longestMatch keys s with
  | some k =>
    let r := specGreedy keys (s.drop k.length)
    (k :: r.1, r.2)
  | none =>
    match s with
    | [] => ([], [])
    | c :: rest =>
      let r := specGreedy keys rest
      (r.1, c :: r.2)
termination_by s.length
decreasing_by
  · have hmem : ∀ (l : List (List Char)) (m : List Char),
        maxByLen l = some m → m ∈ l := by
      intro l
      induction l with
      | nil => intro m hm; simp [maxByLen] at hm
      | cons a t ih =>
        intro m hm
        rw [maxByLen] at hm
        rcases ht : maxByLen t with _ | b
        · rw [ht] at hm
          simp at hm
          simp [hm]
        · rw [ht] at hm
          simp only at hm
          by_cases hb : b.length ≤ a.length
          · rw [if_pos hb] at hm
            simp at hm
            simp [hm]
          · rw [if_neg hb] at hm
            simp at hm
            subst hm
            exact List.mem_cons_of_mem a (ih b ht)
    have hk := hmem _ _ h
    rw [matchingKeys, List.mem_filter] at hk
    obtain ⟨-, hk⟩ := hk
    rw [Bool.and_eq_true] at hk
    obtain ⟨hk1, hk2⟩ := hk
    cases k with
    | nil => simp at hk1
    | cons a as =>
      cases s with
      | nil => simp [prefixOfL] at hk2
      | cons b bs =>
        simp only [List.length_drop, List.length_cons]
        omega
  · simp

/-- The trace of the `tokenize_ipa` scan loop: the emitted tokens and
unknown characters in scan order, interleaved. -/
def greedyTrace (keys : List (List Char)) (s : List Char) :
    List (List Char ⊕ Char) :=
  match h : findFirstMatch keys s with
  | some k => Sum.inl k :: greedyTrace keys (s.drop k.length)
  | none =>
    match s with
    | [] => []
    | c :: rest => Sum.inr c :: greedyTrace keys rest
termination_by s.length
decreasing_by
  · have hp := List.find?_some h
    rw [Bool.and_eq_true] at hp
    obtain ⟨hk, hpre⟩ := hp
    cases k with
    | nil => simp at hk
    | cons a as =>
      cases s with
      | nil => simp [prefixOfL] at hpre
      | cons b bs =>
        simp only [List.length_drop, List.length_cons]
        omega
  · simp

/-- The matched tokens of a scan trace, in order. -/
def traceToks : List (List Char ⊕ Char) → List (List Char)
  | [] => []
  | Sum.inl k :: t => k :: traceToks t
  | Sum.inr _ :: t => traceToks t

/-- The unmapped characters of a scan trace, in order. -/
def traceUnks : List (List Char ⊕ Char) → List Char
  | [] => []
  | Sum.inl _ :: t => traceUnks t
  | Sum.inr c :: t => c :: traceUnks t

/-- Concatenation of a scan trace back into the scanned string. -/
def flattenTrace : List (List Char ⊕ Char) → List Char
  | [] => []
  | Sum.inl k :: t => k ++ flattenTrace t
  | Sum.inr c :: t => c :: flattenTrace t

/-- Modelled from the spec (§4.2 rule 14): left-to-right classification of
rhotics in the interior of a word (no word-initial rule): a geminate `rr`
yields one strong trill `r`; a single `r` directly after `l`, `n` or `s`
yields a strong trill; any other `r` yields the weak tap `ɾ`; all other
characters pass through. -/
def rhoticGo : List Char → List Char
  | [] => []
  | [c] => if c = 'r' then ['ɾ'] else [c]
  | [c, d] =>
    if c = 'r' then
      (if d = 'r' then ['r'] else 'ɾ' :: rhoticGo [d])
    else if d = 'r' then
      (if c = 'l' ∨ c = 'n' ∨ c = 's' then [c, 'r'] else [c, 'ɾ'])
    else c :: rhoticGo [d]
  | c :: d :: e :: u =>
    if c = 'r' then
      (if d = 'r' then 'r' :: rhoticGo (e :: u)
       else 'ɾ' :: rhoticGo (d :: e :: u))
    else if d = 'r' ∧ e = 'r' then c :: 'r' :: rhoticGo u
    else if d = 'r' then
      (if c = 'l' ∨ c = 'n' ∨ c = 's' then c :: 'r' :: rhoticGo (e :: u)
       else c :: 'ɾ' :: rhoticGo (e :: u))
    else c :: rhoticGo (d :: e :: u)

/-- Modelled from the spec (§4.2 rule 14): as `rhoticGo`, plus the
word-initial rule — a word-initial `r` (single or geminate) is a strong
trill. -/
def rhoticSpec (s : List Char) : List Char :=
  match s with
  | [] => []
  | c :: u =>
    if c = 'r' then
      (if u.head? = some 'r' then 'r' :: rhoticGo (u.drop 1)
       else 'r' :: rhoticGo u)
    else rhoticGo (c :: u)

/-- The punctuation-isolation adjacency relation of the specification: two
adjacent characters never pair a punctuation character with an alphabetic
one (for an arbitrary alphabetic predicate `alpha`). -/
def punctSafe (alpha : Char → Bool) (a b : Char) : Prop :=
  ¬(a ∈ PUNCTL ∧ alpha b = true) ∧ ¬(alpha a = true ∧ b ∈ PUNCTL)

/-- Adjacency invariant of the normalizer: every neighbour of a
punctuation character is whitespace. -/
def IsoW (a b : Char) : Prop :=
  (a ∈ PUNCTL → b ∈ wsChars) ∧ (b ∈ PUNCTL → a ∈ wsChars)

/-! ## Basic lemmas about the scan loop -/

theorem findFirstMatch_nil (keys : List (List Char)) :
    findFirstMatch keys [] = none := by
  unfold findFirstMatch
  rw [List.find?_eq_none]
  intro k hk
  cases k with
  | nil => simp
  | cons a as => simp [prefixOfL]

theorem greedyScan_nil (keys : List (List Char)) :
    greedyScan keys [] = ([], []) := by
  unfold greedyScan
  split
  · rename_i k heq
    rw [findFirstMatch_nil] at heq
    exact absurd heq (by simp)
  · rfl

theorem greedyScan_match (keys : List (List Char)) (s k : List Char)
    (h : findFirstMatch keys s = some k) :
    greedyScan keys s =
      ((k :: (greedyScan keys (s.drop k.length)).1),
       (greedyScan keys (s.drop k.length)).2) := by
  conv_lhs => unfold greedyScan
  split
  · rename_i k' heq
    rw [h] at heq
    cases heq
    rfl
  · rename_i heq
    rw [h] at heq
    exact absurd heq (by simp)

theorem greedyScan_none (keys : List (List Char)) (c : Char) (rest : List Char)
    (h : findFirstMatch keys (c :: rest) = none) :
    greedyScan keys (c :: rest) =
      ((greedyScan keys rest).1, c :: (greedyScan keys rest).2) := by
  conv_lhs => unfold greedyScan
  split
  · rename_i k' heq
    rw [h] at heq
    exact absurd heq (by simp)
  · rfl

theorem findFirstMatch_single_mem (keys : List (List Char))
    (hk : ∀ k ∈ keys, k.length = 1) (c : Char) (rest : List Char)
    (hc : [c] ∈ keys) :
    findFirstMatch keys (c :: rest) = some [c] := by
  induction keys with
  | nil => cases hc
  | cons k0 ks ih =>
    have hk0 := hk k0 (List.mem_cons_self k0 ks)
    match k0, hk0 with
    | [d], _ =>
      unfold findFirstMatch
      by_cases hdc : d = c
      · subst hdc
        rw [List.find?_cons_of_pos]
        simp [prefixOfL]
      · rw [List.find?_cons_of_neg]
        · have : [c] ∈ ks := by
            rcases List.mem_cons.mp hc with h1 | h1
            · exact absurd h1.symm (by simp [hdc])
            · exact h1
          exact ih (fun k hkk => hk k (List.mem_cons_of_mem _ hkk)) this
        · simp [prefixOfL, hdc]

theorem findFirstMatch_single_not (keys : List (List Char))
    (hk : ∀ k ∈ keys, k.length = 1) (c : Char) (rest : List Char)
    (hc : [c] ∉ keys) :
    findFirstMatch keys (c :: rest) = none := by
  unfold findFirstMatch
  rw [List.find?_eq_none]
  intro k hkk
  have hk1 := hk k hkk
  match k, hk1 with
  | [d], _ =>
    have hdc : d ≠ c := by
      intro h
      subst h
      exact hc hkk
    simp [prefixOfL, hdc]

/-- Over a vocabulary whose keys are all single characters, the greedy scan
maps each character that is a key to that key and reports every other
character as unknown. -/
theorem greedyScan_single (keys : List (List Char))
    (hk : ∀ k ∈ keys, k.length = 1) (s : List Char) :
    greedyScan keys s =
      ((s.filter (fun c => decide ([c] ∈ keys))).map (fun c => [c]),
       s.filter (fun c => !decide ([c] ∈ keys))) := by
  induction s with
  | nil => simp [greedyScan_nil]
  | cons c rest ih =>
    by_cases hc : [c] ∈ keys
    · rw [greedyScan_match keys (c :: rest) [c]
        (findFirstMatch_single_mem keys hk c rest hc)]
      simp only [List.length_cons, List.length_nil, Nat.zero_add,
        List.drop_succ_cons, List.drop_zero]
      rw [ih]
      simp [hc]
    · rw [greedyScan_none keys c rest
        (findFirstMatch_single_not keys hk c rest hc)]
      rw [ih]
      simp [hc]

/-! ## C1: tokenizing `"/ kˈasa /"` over the `{k, ˈ, a, s}` vocabulary -/

/-- Evaluation of `tokenize_ipa("/ kˈasa /", {k,ˈ,a,s}, True)`: the
preprocessing strips the outer whitespace first and only then the slashes,
so the two spaces inside the slashes remain and are reported unmapped. -/
theorem tokenize_kasa_eval :
    tokenize_ipa ['/', ' ', 'k', 'ˈ', 'a', 's', 'a', ' ', '/']
      [(['k'], 53), (['ˈ'], 156), (['a'], 43), (['s'], 61)] true =
      ([['k'], ['ˈ'], ['a'], ['s'], ['a']], [' ', ' ']) := by
  unfold tokenize_ipa
  have hp : preprocessIpa ['/', ' ', 'k', 'ˈ', 'a', 's', 'a', ' ', '/']
      [(['k'], 53), (['ˈ'], 156), (['a'], 43), (['s'], 61)] true =
      [' ', 'k', 'ˈ', 'a', 's', 'a', ' '] := by decide
  rw [hp]
  rw [greedyScan_single _ (by decide) _]
  decide

/-- C1, counterexample: `tokenize("/ kˈasa /", vocab, True)` over a
vocabulary with exactly the single-character keys `k`, `ˈ`, `a`, `s` does
NOT return zero unmapped characters: the interior spaces survive
`strip().strip('/')` and are unmapped. -/
theorem c1_counterexample :
    ¬ ((tokenize_ipa ['/', ' ', 'k', 'ˈ', 'a', 's', 'a', ' ', '/']
      [(['k'], 53), (['ˈ'], 156), (['a'], 43), (['s'], 61)] true).1 =
        [['k'], ['ˈ'], ['a'], ['s'], ['a']] ∧
      (tokenize_ipa ['/', ' ', 'k', 'ˈ', 'a', 's', 'a', ' ', '/']
      [(['k'], 53), (['ˈ'], 156), (['a'], 43), (['s'], 61)] true).2 = []) := by
  rw [tokenize_kasa_eval]
  intro h
  exact absurd h.2 (by simp)

/-- C1, amended: tokenizing `"/ kˈasa /"` with keepStressIfMapped = True
over a vocabulary containing exactly the single-character keys `k`, `ˈ`,
`a`, `s` returns the token sequence `[k, ˈ, a, s, a]` together with exactly
two unmapped characters, the two spaces adjacent to the slashes: the
tokenizer strips the surrounding whitespace and then the outer slash
delimiters, but not the whitespace inside the slashes. -/
theorem c1_amended :
    tokenize_ipa ['/', ' ', 'k', 'ˈ', 'a', 's', 'a', ' ', '/']
      [(['k'], 53), (['ˈ'], 156), (['a'], 43), (['s'], 61)] true =
      ([['k'], ['ˈ'], ['a'], ['s'], ['a']], [' ', ' ']) :=
  tokenize_kasa_eval

/-! ## C4: round-trip of repeated vocabulary symbols -/

theorem mem_sortKeysByLen {k : List Char} {keys : List (List Char)} :
    k ∈ sortKeysByLen keys ↔ k ∈ keys :=
  (List.perm_insertionSort lenGE keys).mem_iff

theorem dropWhile_of_none (p : Char → Bool) (s : List Char)
    (h : ∀ c ∈ s, p c = false) : s.dropWhile p = s := by
  cases s with
  | nil => rfl
  | cons c t => simp [List.dropWhile_cons, h c (List.mem_cons_self c t)]

theorem pyStripP_of_none (p : Char → Bool) (s : List Char)
    (h : ∀ c ∈ s, p c = false) : pyStripP p s = s := by
  unfold pyStripP dropTrailing
  rw [dropWhile_of_none p s h]
  rw [dropWhile_of_none p s.reverse (fun c hc => h c (List.mem_reverse.mp hc))]
  exact List.reverse_reverse s

theorem join_replicate_singleton (c : Char) (n : Nat) :
    (List.replicate n [c]).flatten = List.replicate n c := by
  induction n with
  | zero => rfl
  | succ m ih => simp [List.replicate_succ, ih]

theorem replace2_replicate (a b : Char) (rep : List Char) (c : Char)
    (hab : ¬(c = a ∧ c = b)) (n : Nat) :
    replace2 a b rep (List.replicate n c) = List.replicate n c := by
  induction n with
  | zero => rfl
  | succ m ih =>
    cases m with
    | zero => rfl
    | succ l =>
      rw [List.replicate_succ, List.replicate_succ]
      rw [replace2, if_neg hab]
      rw [← List.replicate_succ, ih]

theorem filter_replicate_pos (p : Char → Bool) (c : Char) (n : Nat)
    (h : p c = true) : (List.replicate n c).filter p = List.replicate n c := by
  induction n with
  | zero => rfl
  | succ m ih => simp [List.replicate_succ, List.filter_cons, h, ih]

theorem filter_replicate_neg (p : Char → Bool) (c : Char) (n : Nat)
    (h : p c = false) : (List.replicate n c).filter p = [] := by
  induction n with
  | zero => rfl
  | succ m ih => simp [List.replicate_succ, List.filter_cons, h, ih]

/-- C4, counterexample: the space character is a vocabulary key of
`get_phoneme_map`, but tokenizing the transcription consisting of one space
yields no token at all (the input is consumed by `strip()`), not the space
symbol with zero unmapped characters. -/
theorem c4_counterexample :
    ¬ (tokenize_ipa [' '] get_phoneme_map true = ([[' ']], [])) := by
  unfold tokenize_ipa
  have hp : preprocessIpa [' '] get_phoneme_map true = [] := by decide
  rw [hp, greedyScan_nil]
  simp

/-- C4, amended: for every key `k` of `get_phoneme_map` other than the
space key, tokenizing a transcription consisting of `k` repeated `n` times
(with keepStressIfMapped = True) yields exactly that symbol repeated `n`
times with zero unmapped characters.  (The space key fails because
`strip()` consumes a whitespace-only transcription.) -/
theorem c4_amended (k : List Char) (hmem : k ∈ get_phoneme_map.map Prod.fst)
    (hk : k ≠ [' ']) (n : Nat) :
    tokenize_ipa ((List.replicate n k).flatten) get_phoneme_map true =
      (List.replicate n k, []) := by
  have hlen : ∀ x ∈ get_phoneme_map.map Prod.fst, x.length = 1 := by decide
  have hfacts : ∀ x ∈ get_phoneme_map.map Prod.fst,
      x = [' '] ∨ (∀ d ∈ x, (d ∈ wsChars) = False ∧ d ≠ '/') := by decide
  obtain ⟨c, rfl⟩ : ∃ c, k = [c] := by
    have h1 := hlen k hmem
    match k, h1 with
    | [c], _ => exact ⟨c, rfl⟩
  have hc : (c ∈ wsChars) = False ∧ c ≠ '/' := by
    rcases hfacts [c] hmem with h | h
    · exact absurd h hk
    · exact h c (List.mem_cons_self c [])
  rw [join_replicate_singleton]
  unfold tokenize_ipa
  have hpre : preprocessIpa (List.replicate n c) get_phoneme_map true =
      List.replicate n c := by
    unfold preprocessIpa
    have h1 : pyStripP (fun c => c ∈ wsChars) (List.replicate n c) =
        List.replicate n c := by
      apply pyStripP_of_none
      intro d hd
      rw [List.eq_of_mem_replicate hd]
      simp [hc.1]
    have h2 : pyStripP (fun c => c = '/') (List.replicate n c) =
        List.replicate n c := by
      apply pyStripP_of_none
      intro d hd
      rw [List.eq_of_mem_replicate hd]
      simp [hc.2]
    simp only [h1, h2]
    rw [if_pos (by decide : (true && (get_phoneme_map.map Prod.fst).contains ['ˈ']) = true)]
    rw [if_pos (by decide :
      ((get_phoneme_map.map Prod.fst).contains ['ʧ'] &&
        !(get_phoneme_map.map Prod.fst).contains ['t', 'ʃ']) = true)]
    exact replace2_replicate 't' 'ʃ' ['ʧ'] c
      (fun h => absurd (h.1 ▸ h.2) (by decide)) n
  rw [hpre]
  rw [greedyScan_single _
    (fun x hx => hlen x (mem_sortKeysByLen.mp hx)) _]
  have hmem' : [c] ∈ sortKeysByLen (get_phoneme_map.map Prod.fst) :=
    mem_sortKeysByLen.mpr hmem
  rw [filter_replicate_pos _ c n (by simp [hmem']),
      filter_replicate_neg _ c n (by simp [hmem'])]
  rw [List.map_replicate]

/-- C4, witness: the key `a` of `get_phoneme_map` round-trips: tokenizing
`aaa` yields the symbol `a` three times with zero unmapped characters. -/
theorem c4_witness :
    ['a'] ∈ get_phoneme_map.map Prod.fst ∧ ['a'] ≠ [' '] ∧
      tokenize_ipa ((List.replicate 3 ['a']).flatten) get_phoneme_map true =
        (List.replicate 3 ['a'], []) :=
  ⟨by decide, by decide, c4_amended ['a'] (by decide) (by decide) 3⟩

/-! ## C6: the marker finalizer -/

theorem acuteMap_eq_self (c : Char) (h : c ∉ ACCL) : acuteMap c = c := by
  simp only [ACCL, List.mem_cons, not_or] at h
  obtain ⟨h1, h2, h3, h4, h5, -⟩ := h
  simp [acuteMap, h1, h2, h3, h4, h5]

theorem acuteMap_not_acc (c : Char) : acuteMap c ∉ ACCL := by
  unfold acuteMap
  split_ifs with h1 h2 h3 h4 h5
  · decide
  · decide
  · decide
  · decide
  · decide
  · simp [ACCL, h1, h2, h3, h4, h5]

theorem strip_accents_append (a b : List Char) :
    strip_accents (a ++ b) = strip_accents a ++ strip_accents b :=
  List.map_append acuteMap a b

theorem strip_accents_of_noacc (s : List Char) (h : ∀ c ∈ s, c ∉ ACCL) :
    strip_accents s = s := by
  unfold strip_accents
  induction s with
  | nil => rfl
  | cons c t ih =>
    rw [List.map_cons]
    rw [acuteMap_eq_self c (h c (List.mem_cons_self c t))]
    rw [ih (fun d hd => h d (List.mem_cons_of_mem c hd))]

theorem firstAccIdx_none_iff (p : List Char) :
    firstAccIdx p = none ↔ ∀ c ∈ p, c ∉ ACCL := by
  induction p with
  | nil => simp [firstAccIdx]
  | cons c t ih =>
    unfold firstAccIdx
    by_cases hc : c ∈ ACCL
    · simp [hc]
    · simp [hc, ih]

theorem firstAccIdx_some_facts (p : List Char) (pos : Nat)
    (h : firstAccIdx p = some pos) :
    pos < p.length ∧ p.getD pos ' ' ∈ ACCL ∧ ∀ c ∈ p.take pos, c ∉ ACCL := by
  induction p generalizing pos with
  | nil => simp [firstAccIdx] at h
  | cons c t ih =>
    unfold firstAccIdx at h
    by_cases hc : c ∈ ACCL
    · rw [if_pos hc] at h
      cases h
      simpa using hc
    · rw [if_neg hc] at h
      rcases ht : firstAccIdx t with _ | i
      · rw [ht] at h
        simp at h
      · rw [ht] at h
        have h' : i + 1 = pos := by simpa using h
        subst h'
        obtain ⟨h1, h2, h3⟩ := ih i ht
        refine ⟨by simpa using h1, by simpa using h2, ?_⟩
        intro d hd
        rw [List.take_succ_cons] at hd
        rcases List.mem_cons.mp hd with h4 | h4
        · subst h4
          exact hc
        · exact h3 d h4

/-- C6: the marker finalizer.  If the string has no accented vowel it is
returned with accents stripped (the identity, since it is accent free).
If the first accented vowel sits at index `pos`, the primary-stress mark
`ˈ` is inserted immediately before that vowel — or immediately before the
preceding character when that character is a glide `j`/`w` — the accented
vowel is replaced by its plain equivalent, and the remainder of the string
has all accents stripped. -/
theorem c6_marker_finalizer (p : List Char) :
    (firstAccIdx p = none →
      insert_stress_marker_and_clean p = strip_accents p ∧
      insert_stress_marker_and_clean p = p) ∧
    (∀ pos, firstAccIdx p = some pos →
      insert_stress_marker_and_clean p =
        (if 0 < pos ∧ (p.getD (pos - 1) ' ' = 'j' ∨ p.getD (pos - 1) ' ' = 'w')
         then p.take (pos - 1) ++ ['ˈ', p.getD (pos - 1) ' ']
         else p.take pos ++ ['ˈ'])
        ++ [acuteMap (p.getD pos ' ')] ++ strip_accents (p.drop (pos + 1))) := by
  constructor
  · intro h
    have hs : insert_stress_marker_and_clean p = strip_accents p := by
      unfold insert_stress_marker_and_clean
      rw [h]
    exact ⟨hs, by
      rw [hs]
      exact strip_accents_of_noacc p ((firstAccIdx_none_iff p).mp h)⟩
  · intro pos h
    obtain ⟨hlen, hacc, hpre⟩ := firstAccIdx_some_facts p pos h
    have hpre' : ∀ k, k ≤ pos → ∀ c ∈ p.take k, c ∉ ACCL := by
      intro k hk c hc
      apply hpre c
      have : p.take k = (p.take pos).take k := by
        rw [List.take_take, Nat.min_eq_left hk]
      rw [this] at hc
      exact List.take_subset k (p.take pos) hc
    unfold insert_stress_marker_and_clean
    rw [h]
    simp only
    by_cases hg :
        0 < pos ∧ (p.getD (pos - 1) ' ' = 'j' ∨ p.getD (pos - 1) ' ' = 'w')
    · rw [if_pos hg, if_pos hg]
      have hmid : (p.drop (pos - 1)).take (pos - (pos - 1)) =
          [p.getD (pos - 1) ' '] := by
        have hlt : pos - 1 < p.length := by omega
        rw [List.drop_eq_getElem_cons hlt]
        have h1 : pos - (pos - 1) = 1 := by omega
        rw [h1, List.getD_eq_getElem p ' ' hlt]
        rfl
      rw [hmid]
      simp only [strip_accents_append]
      rw [strip_accents_of_noacc (p.take (pos - 1))
        (hpre' (pos - 1) (by omega))]
      have hgl : p.getD (pos - 1) ' ' ∉ ACCL := by
        rcases hg.2 with h2 | h2 <;> rw [h2] <;> decide
      rw [strip_accents_of_noacc ['ˈ'] (by decide)]
      rw [strip_accents_of_noacc [p.getD (pos - 1) ' ']
        (by intro c hc; rw [List.mem_singleton.mp hc]; exact hgl)]
      rw [strip_accents_of_noacc [acuteMap (p.getD pos ' ')]
        (by intro c hc; rw [List.mem_singleton.mp hc];
            exact acuteMap_not_acc _)]
      simp
    · rw [if_neg hg, if_neg hg]
      have h0 : pos - pos = 0 := by omega
      rw [h0, List.take_zero]
      simp only [strip_accents_append]
      rw [show strip_accents [] = [] from rfl]
      rw [strip_accents_of_noacc (p.take pos) (hpre' pos (by omega))]
      rw [strip_accents_of_noacc ['ˈ'] (by decide)]
      rw [strip_accents_of_noacc [acuteMap (p.getD pos ' ')]
        (by intro c hc; rw [List.mem_singleton.mp hc];
            exact acuteMap_not_acc _)]
      simp

/-- C6, witness: on `kása` the finalizer yields `kˈasa` — the marker lands
immediately before the stressed vowel and the accent is removed. -/
theorem c6_witness :
    insert_stress_marker_and_clean ['k', 'á', 's', 'a'] =
      ['k', 'ˈ', 'a', 's', 'a'] := by
  have h := (c6_marker_finalizer ['k', 'á', 's', 'a']).2 1 (by decide)
  rw [h]
  decide

/-! ## C3: the stress assigner -/

theorem drop_cons_facts (p : List Char) (i : Nat) (c : Char) (t : List Char)
    (h : p.drop i = c :: t) :
    p.getD i ' ' = c ∧ t = p.drop (i + 1) := by
  constructor
  · have h0 : (p.drop i)[0]? = p[i + 0]? := List.getElem?_drop p i 0
    rw [h] at h0
    simp at h0
    rw [List.getD_eq_getElem?_getD, ← h0]
    rfl
  · have : p.drop (i + 1) = (p.drop i).drop 1 := by
      rw [List.drop_drop, Nat.add_comm]
    rw [this, h]
    rfl

theorem vgAux_facts (l : List Char) : ∀ (p : List Char) (i : Nat),
    l = p.drop i →
    (∀ se ∈ vgAux l i none, se.1 < se.2 ∧ p.getD se.1 ' ' ∈ ALLVL) ∧
    (∀ st, st < i → p.getD st ' ' ∈ ALLVL →
      ∀ se ∈ vgAux l i (some st), se.1 < se.2 ∧ p.getD se.1 ' ' ∈ ALLVL) := by
  induction l with
  | nil =>
    intro p i _
    constructor
    · intro se hse
      simp [vgAux] at hse
    · intro st hst hstv se hse
      simp only [vgAux, List.mem_singleton] at hse
      subst hse
      exact ⟨hst, hstv⟩
  | cons c t ih =>
    intro p i hdrop
    obtain ⟨hc, ht⟩ := drop_cons_facts p i c t hdrop.symm
    have iht := ih p (i + 1) ht
    constructor
    · intro se hse
      unfold vgAux at hse
      by_cases hcv : c ∈ ALLVL
      · rw [if_pos hcv] at hse
        exact iht.2 i (Nat.lt_succ_self i) (hc ▸ hcv) se hse
      · rw [if_neg hcv] at hse
        exact iht.1 se hse
    · intro st hst hstv se hse
      unfold vgAux at hse
      by_cases hcv : c ∈ ALLVL
      · rw [if_pos hcv] at hse
        exact iht.2 st (Nat.lt_succ_of_lt hst) hstv se hse
      · rw [if_neg hcv] at hse
        rcases List.mem_cons.mp hse with h1 | h1
        · subst h1
          exact ⟨hst, hstv⟩
        · exact iht.1 se h1

theorem vowelGroups_facts (p : List Char) :
    ∀ se ∈ vowelGroups p, se.1 < se.2 ∧ p.getD se.1 ' ' ∈ ALLVL :=
  (vgAux_facts p p 0 (by simp)).1

/-- C3: the stress assigner.  A string that already contains an accented
vowel, or whose vowel-group list has at most one element, is returned
unchanged.  Otherwise, with at least two vowel groups and no accent, the
group selected is the penultimate one when the string ends in a plain
vowel, `n` or `s` and the final one otherwise, and the plain vowel at the
start of that group (its first plain vowel) is replaced by its accented
version.  (With at least two groups the computed index is never negative,
so the source's clamp to the first group cannot fire; it coincides with
the truncated subtraction used here.) -/
theorem c3_stress_assigner (p : List Char) :
    (p.any (fun c => c ∈ ACCL) = true → add_stress_if_needed p = p) ∧
    ((vowelGroups p).length ≤ 1 → add_stress_if_needed p = p) ∧
    (p.any (fun c => c ∈ ACCL) = false → 2 ≤ (vowelGroups p).length →
      ∃ s e, (vowelGroups p).get?
          ((vowelGroups p).length - (if endsVNS p then 2 else 1)) =
            some (s, e) ∧
        p.getD s ' ' ∈ VOWL ∧
        add_stress_if_needed p =
          p.take s ++ [accentOf (p.getD s ' ')] ++ p.drop (s + 1)) := by
  refine ⟨?_, ?_, ?_⟩
  · intro h
    unfold add_stress_if_needed
    rw [if_pos h]
  · intro h
    unfold add_stress_if_needed
    by_cases ha : p.any (fun c => c ∈ ACCL) = true
    · rw [if_pos ha]
    · rw [if_neg ha, if_pos h]
  · intro ha hg
    have hidx : (vowelGroups p).length - (if endsVNS p then 2 else 1) <
        (vowelGroups p).length := by
      split <;> omega
    obtain ⟨g, hget⟩ : ∃ g, (vowelGroups p).get?
        ((vowelGroups p).length - (if endsVNS p then 2 else 1)) = some g := by
      rw [List.get?_eq_getElem?]
      exact ⟨_, List.getElem?_eq_getElem hidx⟩
    have hmem : g ∈ vowelGroups p := by
      rw [List.get?_eq_getElem?] at hget
      exact List.getElem?_mem hget
    obtain ⟨hlt, hav⟩ := vowelGroups_facts p g hmem
    have hnoacc : ∀ c ∈ p, c ∉ ACCL := by simpa using ha
    have hglen : g.1 < p.length := by
      by_contra hcon
      rw [List.getD_eq_default _ _ (by omega)] at hav
      exact absurd hav (by decide)
    have hmemc : p.getD g.1 ' ' ∈ p := by
      rw [List.getD_eq_getElem p ' ' hglen]
      exact List.getElem_mem hglen
    have hvow : p.getD g.1 ' ' ∈ VOWL := by
      have hav2 := hav
      unfold ALLVL at hav2
      rcases List.mem_append.mp hav2 with h1 | h1
      · exact h1
      · exact absurd h1 (hnoacc _ hmemc)
    refine ⟨g.1, g.2, by rw [hget], hvow, ?_⟩
    unfold add_stress_if_needed
    rw [if_neg (by simp [ha]), if_neg (by omega)]
    dsimp only
    rw [hget]
    dsimp only
    unfold accentFirstPlain
    obtain ⟨d, hd⟩ : ∃ d, g.2 - g.1 = d + 1 := ⟨g.2 - g.1 - 1, by omega⟩
    rw [hd, List.range'_succ]
    rw [List.find?_cons_of_pos _ (by simpa using hvow)]

/-- C3, witness: `kasa` has two vowel groups, no accent, and ends in a
vowel, so the penultimate group (the `a` at index 1) is accented. -/
theorem c3_witness :
    add_stress_if_needed ['k', 'a', 's', 'a'] = ['k', 'á', 's', 'a'] := by
  obtain ⟨s, e, hg, hv, heq⟩ :=
    (c3_stress_assigner ['k', 'a', 's', 'a']).2.2 (by decide) (by decide)
  have hc : (vowelGroups ['k', 'a', 's', 'a']).get?
      ((vowelGroups ['k', 'a', 's', 'a']).length -
        (if endsVNS ['k', 'a', 's', 'a'] then 2 else 1)) = some (1, 2) := by
    decide
  rw [hc] at hg
  have hs : s = 1 := by
    have := Option.some.inj hg
    exact (congrArg Prod.fst this).symm
  subst hs
  rw [heq]
  decide

/-! ## C2: the transcription never contains an accented vowel -/

theorem mem_joinSpace (ts : List (List Char)) (c : Char)
    (h : c ∈ joinSpace ts) : c = ' ' ∨ ∃ t ∈ ts, c ∈ t := by
  induction ts with
  | nil => cases h
  | cons t rest ih =>
    cases rest with
    | nil =>
      right
      exact ⟨t, List.mem_cons_self t [], h⟩
    | cons t2 rest2 =>
      have hj : joinSpace (t :: t2 :: rest2) = t ++ ' ' :: joinSpace (t2 :: rest2) := rfl
      rw [hj] at h
      rcases List.mem_append.mp h with h1 | h1
      · right
        exact ⟨t, List.mem_cons_self _ _, h1⟩
      · rcases List.mem_cons.mp h1 with h2 | h2
        · exact Or.inl h2
        · rcases ih h2 with h3 | ⟨t3, h4, h5⟩
          · exact Or.inl h3
          · exact Or.inr ⟨t3, List.mem_cons_of_mem t h4, h5⟩

theorem mem_pyStripP (p : Char → Bool) (s : List Char) (c : Char)
    (h : c ∈ pyStripP p s) : c ∈ s := by
  unfold pyStripP dropTrailing at h
  rw [List.mem_reverse] at h
  have h1 := (List.dropWhile_sublist p (l := (s.dropWhile p).reverse)).subset h
  rw [List.mem_reverse] at h1
  exact (List.dropWhile_sublist p (l := s)).subset h1

theorem strip_accents_noacc (s : List Char) (c : Char)
    (h : c ∈ strip_accents s) : c ∉ ACCL := by
  unfold strip_accents at h
  obtain ⟨d, -, rfl⟩ := List.mem_map.mp h
  exact acuteMap_not_acc d

theorem insert_stress_noacc (p : List Char) (c : Char)
    (h : c ∈ insert_stress_marker_and_clean p) : c ∉ ACCL := by
  unfold insert_stress_marker_and_clean at h
  rcases hf : firstAccIdx p with _ | pos
  · rw [hf] at h
    exact strip_accents_noacc _ _ h
  · rw [hf] at h
    exact strip_accents_noacc _ _ h

theorem processToks_noacc (ts : List (List Char)) (t : List Char)
    (ht : t ∈ processToks ts) (c : Char) (hc : c ∈ t) : c ∉ ACCL := by
  induction ts with
  | nil => cases ht
  | cons t0 rest ih =>
    unfold processToks at ht
    by_cases h0 : t0.isEmpty
    · rw [if_pos h0] at ht
      exact ih ht
    · rw [if_neg h0] at ht
      by_cases h1 : t0.all (fun c => c ∈ PUNCTL)
      · rw [if_pos h1] at ht
        rcases List.mem_cons.mp ht with h2 | h2
        · subst h2
          have hp : c ∈ PUNCTL := by
            have := List.all_eq_true.mp h1 c hc
            simpa using this
          have : ∀ d ∈ PUNCTL, d ∉ ACCL := by decide
          exact this c hp
        · exact ih h2
      · rw [if_neg h1] at ht
        rcases List.mem_cons.mp ht with h2 | h2
        · subst h2
          exact insert_stress_noacc _ _ hc
        · exact ih h2

/-- C2: for every input string, the transcription `g2p text` contains none
of the accented vowels á, é, í, ó, ú. -/
theorem c2_accent_free (text : List Char) (c : Char) (h : c ∈ g2p text) :
    c ∉ ACCL := by
  unfold g2p at h
  by_cases h0 : text = []
  · rw [if_pos h0] at h
    rcases List.mem_cons.mp h with h1 | h1
    · subst h1; decide
    · rcases List.mem_singleton.mp h1 with rfl; decide
  · rw [if_neg h0] at h
    dsimp only at h
    by_cases h1 : g2pResult text = []
    · rw [if_pos h1] at h
      rcases List.mem_cons.mp h with h2 | h2
      · subst h2; decide
      · rcases List.mem_singleton.mp h2 with rfl; decide
    · rw [if_neg h1] at h
      rcases List.mem_cons.mp h with h2 | h2
      · subst h2; decide
      · rcases List.mem_cons.mp h2 with h3 | h3
        · subst h3; decide
        · rcases List.mem_append.mp h3 with h4 | h4
          · have h5 := mem_pyStripP _ _ _ h4
            rcases mem_joinSpace _ _ h5 with h6 | ⟨t, h6, h7⟩
            · subst h6; decide
            · exact processToks_noacc _ t h6 c h7
          · rcases List.mem_cons.mp h4 with h5 | h5
            · subst h5; decide
            · rcases List.mem_singleton.mp h5 with rfl; decide

/-- C2, witness: `á` in the input `casá` is turned into a stress marker
plus plain vowel; the transcription of `casá` contains `a`, not `á`. -/
theorem c2_witness : 'a' ∈ g2p ['c', 'a', 's', 'á'] ∧ 'a' ∉ ACCL :=
  ⟨by decide, c2_accent_free ['c', 'a', 's', 'á'] 'a' (by decide)⟩

/-! ## C8: the shape of the transcription -/

theorem surroundPunct_of_nopunct (t : List Char)
    (h : ∀ c ∈ t, c ∉ PUNCTL) : surroundPunct t = t := by
  induction t with
  | nil => rfl
  | cons c r ih =>
    unfold surroundPunct
    rw [if_neg (h c (List.mem_cons_self c r))]
    rw [ih (fun d hd => h d (List.mem_cons_of_mem c hd))]
    rfl

theorem replace3_of_no_head (a b c : Char) (rep : List Char) :
    ∀ (s : List Char), (∀ d ∈ s, d ≠ a) → replace3 a b c rep s = s := by
  intro s
  induction s with
  | nil => intro _; rfl
  | cons x t ih =>
    intro h
    match t with
    | [] => rfl
    | [y] => rfl
    | y :: z :: t' =>
      rw [replace3, if_neg (by
        intro hcon
        exact absurd hcon.1 (h x (List.mem_cons_self _ _)))]
      rw [ih (fun d hd => h d (List.mem_cons_of_mem x hd))]

theorem collapseWsAux_allws (s : List Char) (h : ∀ c ∈ s, c ∈ wsChars) :
    collapseWsAux true s = [] ∧
      collapseWsAux false s = (if s.isEmpty then [] else [' ']) := by
  induction s with
  | nil => exact ⟨rfl, rfl⟩
  | cons c t ih =>
    have hc := h c (List.mem_cons_self c t)
    have iht := ih (fun d hd => h d (List.mem_cons_of_mem c hd))
    constructor
    · unfold collapseWsAux
      rw [if_pos hc]
      simpa using iht.1
    · unfold collapseWsAux
      rw [if_pos hc]
      simp only [List.isEmpty_cons, if_neg]
      rw [iht.1]

theorem g2pResult_allws (text : List Char) (h : ∀ c ∈ text, c ∈ wsChars) :
    g2pResult text = [] := by
  have hnp : ∀ c ∈ text, c ∉ PUNCTL := by
    intro c hc
    have hws := h c hc
    have : ∀ d ∈ wsChars, d ∉ PUNCTL := by decide
    exact this c hws
  have hnd : ∀ c ∈ text, c ≠ '.' := by
    intro c hc
    have hws := h c hc
    have : ∀ d ∈ wsChars, d ≠ '.' := by decide
    exact this c hws
  unfold g2pResult space_punct normalizeNFC collapseWs
  rw [surroundPunct_of_nopunct text hnp]
  rw [replace3_of_no_head '.' '.' '.' _ text hnd]
  rw [(collapseWsAux_allws text h).2]
  by_cases h0 : text.isEmpty
  · rw [if_pos h0]
    rfl
  · rw [if_neg h0]
    rfl

/-- C8: `g2p` returns either the degenerate `//` or a string of the form
`/ <interior> /` with nonempty interior; the result is `//` exactly when
the input is empty or the assembled interior is empty, and in particular a
whitespace-only input yields `//`. -/
theorem c8_output_shape (text : List Char) :
    (g2p text = ['/', '/'] ∨
      ∃ r, r ≠ [] ∧ g2p text = '/' :: ' ' :: r ++ [' ', '/']) ∧
    (g2p text = ['/', '/'] ↔ text = [] ∨ g2pResult text = []) ∧
    ((∀ c ∈ text, c ∈ wsChars) → g2p text = ['/', '/']) := by
  have hshape : g2p text = ['/', '/'] ∨
      (text ≠ [] ∧ g2pResult text ≠ [] ∧
        g2p text = '/' :: ' ' :: g2pResult text ++ [' ', '/']) := by
    unfold g2p
    by_cases h0 : text = []
    · rw [if_pos h0]
      exact Or.inl rfl
    · rw [if_neg h0]
      dsimp only
      by_cases h1 : g2pResult text = []
      · rw [if_pos h1]
        exact Or.inl rfl
      · rw [if_neg h1]
        exact Or.inr ⟨h0, h1, rfl⟩
  refine ⟨?_, ?_, ?_⟩
  · rcases hshape with h | ⟨-, h1, h2⟩
    · exact Or.inl h
    · exact Or.inr ⟨g2pResult text, h1, h2⟩
  · constructor
    · intro h
      rcases hshape with h1 | ⟨h1, h2, h3⟩
      · unfold g2p at h
        by_cases h0 : text = []
        · exact Or.inl h0
        · rw [if_neg h0] at h
          dsimp only at h
          by_cases h2 : g2pResult text = []
          · exact Or.inr h2
          · rw [if_neg h2] at h
            have := congrArg List.length h
            simp at this
      · rw [h3] at h
        have := congrArg List.length h
        simp at this
    · intro h
      unfold g2p
      rcases h with h | h
      · rw [if_pos h]
      · by_cases h0 : text = []
        · rw [if_pos h0]
        · rw [if_neg h0]
          dsimp only
          rw [if_pos h]
  · intro h
    unfold g2p
    by_cases h0 : text = []
    · rw [if_pos h0]
    · rw [if_neg h0]
      dsimp only
      rw [if_pos (g2pResult_allws text h)]

/-- C8, witness: the whitespace-only input of one space and one tab yields
the degenerate transcription `//`. -/
theorem c8_witness :
    (∀ c ∈ [' ', '\t'], c ∈ wsChars) ∧ g2p [' ', '\t'] = ['/', '/'] :=
  ⟨by decide, (c8_output_shape [' ', '\t']).2.2 (by decide)⟩

/-! ## C5: the scan loop implements greedy longest-match -/

theorem prefixOfL_eq_of_length_eq : ∀ (s k k' : List Char),
    prefixOfL k s = true → prefixOfL k' s = true → k.length = k'.length →
    k = k' := by
  intro s
  induction s with
  | nil =>
    intro k k' hk hk' _
    cases k with
    | nil =>
      cases k' with
      | nil => rfl
      | cons a as => simp [prefixOfL] at hk'
    | cons a as => simp [prefixOfL] at hk
  | cons b bs ih =>
    intro k k' hk hk' hlen
    cases k with
    | nil =>
      cases k' with
      | nil => rfl
      | cons a as => simp at hlen
    | cons a as =>
      cases k' with
      | nil => simp at hlen
      | cons a' as' =>
        rw [prefixOfL, Bool.and_eq_true] at hk hk'
        have ha : a = b := by simpa using hk.1
        have ha' : a' = b := by simpa using hk'.1
        subst ha
        subst ha'
        rw [ih as as' hk.2 hk'.2 (by simpa using hlen)]

theorem maxByLen_eq_none_iff (l : List (List Char)) :
    maxByLen l = none ↔ l = [] := by
  cases l with
  | nil => simp [maxByLen]
  | cons k rest =>
    simp only [maxByLen]
    rcases h : maxByLen rest with _ | m
    · simp
    · simp only
      constructor
      · intro hcon
        split at hcon <;> simp at hcon
      · intro hcon
        simp at hcon

theorem maxByLen_mem (l : List (List Char)) (m : List Char)
    (h : maxByLen l = some m) : m ∈ l := by
  induction l generalizing m with
  | nil => simp [maxByLen] at h
  | cons k rest ih =>
    rw [maxByLen] at h
    rcases hr : maxByLen rest with _ | b
    · rw [hr] at h
      simp at h
      simp [h]
    · rw [hr] at h
      simp only at h
      by_cases hb : b.length ≤ k.length
      · rw [if_pos hb] at h
        simp at h
        simp [h]
      · rw [if_neg hb] at h
        simp at h
        subst h
        exact List.mem_cons_of_mem k (ih b hr)

theorem maxByLen_max (l : List (List Char)) (m : List Char)
    (h : maxByLen l = some m) : ∀ x ∈ l, x.length ≤ m.length := by
  induction l generalizing m with
  | nil => simp [maxByLen] at h
  | cons k rest ih =>
    rw [maxByLen] at h
    intro x hx
    rcases hr : maxByLen rest with _ | b
    · rw [hr] at h
      simp at h
      subst h
      rcases List.mem_cons.mp hx with h1 | h1
      · subst h1; exact Nat.le_refl _
      · rw [maxByLen_eq_none_iff] at hr
        subst hr
        cases h1
    · rw [hr] at h
      simp only at h
      by_cases hb : b.length ≤ k.length
      · rw [if_pos hb] at h
        simp at h
        subst h
        rcases List.mem_cons.mp hx with h1 | h1
        · subst h1; exact Nat.le_refl _
        · exact Nat.le_trans (ih b hr x h1) hb
      · rw [if_neg hb] at h
        have hbm : b = m := by simpa using h
        subst hbm
        rcases List.mem_cons.mp hx with h1 | h1
        · subst h1; omega
        · exact ih b hr x h1

theorem find?_sorted_max (L : List (List Char)) (p : List Char → Bool)
    (hs : L.Sorted lenGE) (k : List Char) (h : L.find? p = some k) :
    ∀ x ∈ L, p x = true → x.length ≤ k.length := by
  induction L generalizing k with
  | nil => simp at h
  | cons k0 L' ih =>
    by_cases h0 : p k0
    · rw [List.find?_cons_of_pos _ h0] at h
      have hk : k0 = k := by simpa using h
      subst hk
      intro x hx _
      rcases List.mem_cons.mp hx with h1 | h1
      · subst h1; exact Nat.le_refl _
      · exact (List.sorted_cons.mp hs).1 x h1
    · rw [List.find?_cons_of_neg _ h0] at h
      intro x hx hp
      rcases List.mem_cons.mp hx with h1 | h1
      · subst h1; exact absurd hp (by simpa using h0)
      · exact ih ((List.sorted_cons.mp hs).2) k h x h1 hp

theorem findFirstMatch_eq_longestMatch (keys : List (List Char))
    (s : List Char) :
    findFirstMatch (sortKeysByLen keys) s = longestMatch keys s := by
  have hperm : ∀ k, k ∈ sortKeysByLen keys ↔ k ∈ keys := fun k =>
    mem_sortKeysByLen
  have hsorted : (sortKeysByLen keys).Sorted lenGE :=
    List.sorted_insertionSort lenGE keys
  rcases h1 : findFirstMatch (sortKeysByLen keys) s with _ | k1
  · rcases h2 : longestMatch keys s with _ | k2
    · rfl
    · exfalso
      have hk2 := maxByLen_mem _ _ h2
      rw [matchingKeys, List.mem_filter] at hk2
      have : findFirstMatch (sortKeysByLen keys) s ≠ none := by
        unfold findFirstMatch
        intro hcon
        rw [List.find?_eq_none] at hcon
        exact absurd hk2.2 (by simpa using hcon k2 ((hperm k2).mpr hk2.1))
      exact this h1
  · rcases h2 : longestMatch keys s with _ | k2
    · exfalso
      have hp1 := List.find?_some h1
      have hmem1 : k1 ∈ keys :=
        (hperm k1).mp (List.mem_of_find?_eq_some h1)
      have hmk : k1 ∈ matchingKeys keys s := by
        rw [matchingKeys, List.mem_filter]
        exact ⟨hmem1, hp1⟩
      unfold longestMatch at h2
      rw [maxByLen_eq_none_iff] at h2
      rw [h2] at hmk
      cases hmk
    · have hp1 := List.find?_some h1
      have hmem1 : k1 ∈ keys :=
        (hperm k1).mp (List.mem_of_find?_eq_some h1)
      have hk2mem := maxByLen_mem _ _ h2
      rw [matchingKeys, List.mem_filter] at hk2mem
      have hle1 : k1.length ≤ k2.length := by
        apply maxByLen_max _ _ h2
        rw [matchingKeys, List.mem_filter]
        exact ⟨hmem1, hp1⟩
      have hle2 : k2.length ≤ k1.length := by
        apply find?_sorted_max _ _ hsorted _ h1 k2 ((hperm k2).mpr hk2mem.1)
        exact hk2mem.2
      rw [Bool.and_eq_true] at hp1
      have hpk2 := hk2mem.2
      rw [Bool.and_eq_true] at hpk2
      rw [prefixOfL_eq_of_length_eq s k1 k2 hp1.2 hpk2.2 (by omega)]

theorem longestMatch_nil (keys : List (List Char)) :
    longestMatch keys [] = none := by
  rw [← findFirstMatch_eq_longestMatch]
  exact findFirstMatch_nil _

theorem longestMatch_facts (keys : List (List Char)) (s k : List Char)
    (h : longestMatch keys s = some k) :
    k ≠ [] ∧ prefixOfL k s = true := by
  have hm := maxByLen_mem _ _ h
  rw [matchingKeys, List.mem_filter, Bool.and_eq_true] at hm
  exact ⟨by simpa using hm.2.1, hm.2.2⟩

theorem specGreedy_nil (keys : List (List Char)) :
    specGreedy keys [] = ([], []) := by
  unfold specGreedy
  split
  · rename_i k heq
    rw [longestMatch_nil] at heq
    exact absurd heq (by simp)
  · rfl

theorem specGreedy_match (keys : List (List Char)) (s k : List Char)
    (h : longestMatch keys s = some k) :
    specGreedy keys s =
      ((k :: (specGreedy keys (s.drop k.length)).1),
       (specGreedy keys (s.drop k.length)).2) := by
  conv_lhs => unfold specGreedy
  split
  · rename_i k' heq
    rw [h] at heq
    cases heq
    rfl
  · rename_i heq
    rw [h] at heq
    exact absurd heq (by simp)

theorem specGreedy_none (keys : List (List Char)) (c : Char)
    (rest : List Char) (h : longestMatch keys (c :: rest) = none) :
    specGreedy keys (c :: rest) =
      ((specGreedy keys rest).1, c :: (specGreedy keys rest).2) := by
  conv_lhs => unfold specGreedy
  split
  · rename_i k' heq
    rw [h] at heq
    exact absurd heq (by simp)
  · rfl

theorem greedyScan_eq_specGreedy (keys : List (List Char)) (s : List Char) :
    greedyScan (sortKeysByLen keys) s = specGreedy keys s := by
  have main : ∀ n (s : List Char), s.length ≤ n →
      greedyScan (sortKeysByLen keys) s = specGreedy keys s := by
    intro n
    induction n with
    | zero =>
      intro s hs
      have hnil : s = [] := by
        cases s with
        | nil => rfl
        | cons c t => simp at hs
      subst hnil
      rw [greedyScan_nil, specGreedy_nil]
    | succ m ih =>
      intro s hs
      rcases h : longestMatch keys s with _ | k
      · have hf : findFirstMatch (sortKeysByLen keys) s = none := by
          rw [findFirstMatch_eq_longestMatch, h]
        cases s with
        | nil => rw [greedyScan_nil, specGreedy_nil]
        | cons c rest =>
          rw [greedyScan_none _ _ _ hf, specGreedy_none _ _ _ h]
          rw [ih rest (by simp at hs; omega)]
      · have hf : findFirstMatch (sortKeysByLen keys) s = some k := by
          rw [findFirstMatch_eq_longestMatch, h]
        obtain ⟨hk0, hkpre⟩ := longestMatch_facts keys s k h
        have hk1 : 1 ≤ k.length := by
          cases k with
          | nil => exact absurd rfl hk0
          | cons a as => simp
        rw [greedyScan_match _ _ _ hf, specGreedy_match _ _ _ h]
        rw [ih (s.drop k.length) (by simp; omega)]

  exact main s.length s (Nat.le_refl _)

/-- C5: for every input string, vocabulary and keep-stress flag, the
tokenizer scans left to right over its preprocessed input and at each
position emits the longest nonempty vocabulary key that is a prefix of the
remaining string, advancing by its length; when no key matches it records
the single current character as unmapped and advances one character,
continuing the scan: `tokenize_ipa` coincides with the specification
scanner `specGreedy`. -/
theorem c5_greedy_longest_match (ipa_text : List Char)
    (phoneme_to_id : List (List Char × Nat)) (keep : Bool) :
    tokenize_ipa ipa_text phoneme_to_id keep =
      specGreedy (phoneme_to_id.map Prod.fst)
        (preprocessIpa ipa_text phoneme_to_id keep) := by
  unfold tokenize_ipa
  exact greedyScan_eq_specGreedy _ _

/-! ## C10: every character is consumed exactly once -/

theorem greedyTrace_nil (keys : List (List Char)) :
    greedyTrace keys [] = [] := by
  unfold greedyTrace
  split
  · rename_i k heq
    rw [findFirstMatch_nil] at heq
    exact absurd heq (by simp)
  · rfl

theorem greedyTrace_match (keys : List (List Char)) (s k : List Char)
    (h : findFirstMatch keys s = some k) :
    greedyTrace keys s =
      Sum.inl k :: greedyTrace keys (s.drop k.length) := by
  conv_lhs => unfold greedyTrace
  split
  · rename_i k' heq
    rw [h] at heq
    cases heq
    rfl
  · rename_i heq
    rw [h] at heq
    exact absurd heq (by simp)

theorem greedyTrace_none (keys : List (List Char)) (c : Char)
    (rest : List Char) (h : findFirstMatch keys (c :: rest) = none) :
    greedyTrace keys (c :: rest) = Sum.inr c :: greedyTrace keys rest := by
  conv_lhs => unfold greedyTrace
  split
  · rename_i k' heq
    rw [h] at heq
    exact absurd heq (by simp)
  · rfl

theorem prefixOfL_append : ∀ (k s : List Char), prefixOfL k s = true →
    k ++ s.drop k.length = s := by
  intro k
  induction k with
  | nil => intro s _; simp
  | cons a as ih =>
    intro s h
    cases s with
    | nil => simp [prefixOfL] at h
    | cons b bs =>
      rw [prefixOfL, Bool.and_eq_true] at h
      have hab : a = b := by simpa using h.1
      subst hab
      simp only [List.length_cons, List.drop_succ_cons, List.cons_append,
        List.cons.injEq, true_and]
      exact ih bs h.2

theorem findFirstMatch_facts (keys : List (List Char)) (s k : List Char)
    (h : findFirstMatch keys s = some k) :
    k ≠ [] ∧ prefixOfL k s = true := by
  have hp := List.find?_some h
  rw [Bool.and_eq_true] at hp
  exact ⟨by simpa using hp.1, hp.2⟩

theorem greedyTrace_facts (keys : List (List Char)) (s : List Char) :
    flattenTrace (greedyTrace keys s) = s ∧
    greedyScan keys s =
      (traceToks (greedyTrace keys s), traceUnks (greedyTrace keys s)) ∧
    (traceToks (greedyTrace keys s)).all (fun t => !t.isEmpty) = true := by
  have main : ∀ n (s : List Char), s.length ≤ n →
      flattenTrace (greedyTrace keys s) = s ∧
      greedyScan keys s =
        (traceToks (greedyTrace keys s), traceUnks (greedyTrace keys s)) ∧
      (traceToks (greedyTrace keys s)).all (fun t => !t.isEmpty) = true := by
    intro n
    induction n with
    | zero =>
      intro s hs
      have hnil : s = [] := by
        cases s with
        | nil => rfl
        | cons c t => simp at hs
      subst hnil
      rw [greedyTrace_nil, greedyScan_nil]
      exact ⟨rfl, rfl, rfl⟩
    | succ m ih =>
      intro s hs
      rcases h : findFirstMatch keys s with _ | k
      · cases s with
        | nil =>
          rw [greedyTrace_nil, greedyScan_nil]
          exact ⟨rfl, rfl, rfl⟩
        | cons c rest =>
          obtain ⟨ih1, ih2, ih3⟩ := ih rest (by simp at hs; omega)
          rw [greedyTrace_none _ _ _ h, greedyScan_none _ _ _ h]
          refine ⟨?_, ?_, ?_⟩
          · rw [flattenTrace, ih1]
          · rw [ih2, traceToks, traceUnks]
          · rw [traceToks]
            exact ih3
      · obtain ⟨hk0, hkpre⟩ := findFirstMatch_facts keys s k h
        have hk1 : 1 ≤ k.length := by
          cases k with
          | nil => exact absurd rfl hk0
          | cons a as => simp
        obtain ⟨ih1, ih2, ih3⟩ := ih (s.drop k.length) (by simp; omega)
        rw [greedyTrace_match _ _ _ h, greedyScan_match _ _ _ h]
        refine ⟨?_, ?_, ?_⟩
        · rw [flattenTrace, ih1]
          exact prefixOfL_append k s hkpre
        · rw [ih2, traceToks, traceUnks]
        · rw [traceToks]
          simp only [List.all_cons, Bool.and_eq_true]
          exact ⟨by simpa using hk0, ih3⟩
  exact main s.length s (Nat.le_refl _)

/-- C10: for every input, vocabulary and keep-stress flag, the scan trace
of `tokenize_ipa` reconstructs the preprocessed input exactly —
concatenating the matched tokens and the unmapped characters in scan order
yields the preprocessed string, the tokens/unmapped lists returned by
`tokenize_ipa` are precisely the two projections of this trace, and every
matched token is nonempty (empty vocabulary keys are skipped, so the loop
always advances and terminates). -/
theorem c10_trace_reconstruction (ipa_text : List Char)
    (phoneme_to_id : List (List Char × Nat)) (keep : Bool) :
    flattenTrace (greedyTrace (sortKeysByLen (phoneme_to_id.map Prod.fst))
        (preprocessIpa ipa_text phoneme_to_id keep)) =
      preprocessIpa ipa_text phoneme_to_id keep ∧
    tokenize_ipa ipa_text phoneme_to_id keep =
      (traceToks (greedyTrace (sortKeysByLen (phoneme_to_id.map Prod.fst))
          (preprocessIpa ipa_text phoneme_to_id keep)),
       traceUnks (greedyTrace (sortKeysByLen (phoneme_to_id.map Prod.fst))
          (preprocessIpa ipa_text phoneme_to_id keep))) ∧
    (traceToks (greedyTrace (sortKeysByLen (phoneme_to_id.map Prod.fst))
        (preprocessIpa ipa_text phoneme_to_id keep))).all
      (fun t => !t.isEmpty) = true := by
  unfold tokenize_ipa
  exact greedyTrace_facts _ _

/-! ## Character-membership lemmas for the rewrite combinators

Each rewrite pass can only output characters of its input or of its
replacement string; these lemmas carry an arbitrary character predicate
`Q` through a pass. -/

theorem all_mem_replace1 (a : Char) (rep : List Char) (Q : Char → Prop)
    (hrep : ∀ c ∈ rep, Q c) :
    ∀ (s : List Char), (∀ c ∈ s, Q c) → ∀ c ∈ replace1 a rep s, Q c := by
  intro s
  induction s with
  | nil => intro _ c hc; cases hc
  | cons x t ih =>
    intro hs c hc
    unfold replace1 at hc
    by_cases hx : x = a
    · rw [if_pos hx] at hc
      rcases List.mem_append.mp hc with h1 | h1
      · exact hrep c h1
      · exact ih (fun d hd => hs d (List.mem_cons_of_mem x hd)) c h1
    · rw [if_neg hx] at hc
      rcases List.mem_cons.mp hc with h1 | h1
      · subst h1; exact hs c (List.mem_cons_self _ _)
      · exact ih (fun d hd => hs d (List.mem_cons_of_mem x hd)) c h1

theorem all_mem_replace2 (a b : Char) (rep : List Char) (Q : Char → Prop)
    (hrep : ∀ c ∈ rep, Q c) :
    ∀ (s : List Char), (∀ c ∈ s, Q c) → ∀ c ∈ replace2 a b rep s, Q c := by
  intro s
  induction s using replace2.induct a b rep with
  | case1 => intro _ c hc; cases hc
  | case2 x => intro hs c hc; exact hs c hc
  | case3 x y t h ih =>
    intro hs c hc
    rw [replace2, if_pos h] at hc
    rcases List.mem_append.mp hc with h1 | h1
    · exact hrep c h1
    · exact ih (fun d hd => hs d
        (List.mem_cons_of_mem x (List.mem_cons_of_mem y hd))) c h1
  | case4 x y t h ih =>
    intro hs c hc
    rw [replace2, if_neg h] at hc
    rcases List.mem_cons.mp hc with h1 | h1
    · subst h1; exact hs c (List.mem_cons_self _ _)
    · exact ih (fun d hd => hs d (List.mem_cons_of_mem x hd)) c h1

theorem all_mem_replace3 (a b e : Char) (rep : List Char) (Q : Char → Prop)
    (hrep : ∀ c ∈ rep, Q c) :
    ∀ (s : List Char), (∀ c ∈ s, Q c) → ∀ c ∈ replace3 a b e rep s, Q c := by
  intro s
  induction s using replace3.induct a b e rep with
  | case1 => intro _ c hc; cases hc
  | case2 x => intro hs c hc; exact hs c hc
  | case3 x y => intro hs c hc; exact hs c hc
  | case4 x y z t h ih =>
    intro hs c hc
    rw [replace3, if_pos h] at hc
    rcases List.mem_append.mp hc with h1 | h1
    · exact hrep c h1
    · exact ih (fun d hd => hs d (List.mem_cons_of_mem x
        (List.mem_cons_of_mem y (List.mem_cons_of_mem z hd)))) c h1
  | case5 x y z t h ih =>
    intro hs c hc
    rw [replace3, if_neg h] at hc
    rcases List.mem_cons.mp hc with h1 | h1
    · subst h1; exact hs c (List.mem_cons_self _ _)
    · exact ih (fun d hd => hs d (List.mem_cons_of_mem x hd)) c h1

theorem all_mem_subLA1 (a : Char) (look : List Char → Bool)
    (rep : List Char) (Q : Char → Prop) (hrep : ∀ c ∈ rep, Q c) :
    ∀ (s : List Char), (∀ c ∈ s, Q c) → ∀ c ∈ subLA1 a look rep s, Q c := by
  intro s
  induction s with
  | nil => intro _ c hc; cases hc
  | cons x t ih =>
    intro hs c hc
    unfold subLA1 at hc
    by_cases hx : x = a ∧ look t = true
    · rw [if_pos hx] at hc
      rcases List.mem_append.mp hc with h1 | h1
      · exact hrep c h1
      · exact ih (fun d hd => hs d (List.mem_cons_of_mem x hd)) c h1
    · rw [if_neg hx] at hc
      rcases List.mem_cons.mp hc with h1 | h1
      · subst h1; exact hs c (List.mem_cons_self _ _)
      · exact ih (fun d hd => hs d (List.mem_cons_of_mem x hd)) c h1

theorem all_mem_subLA2 (a b : Char) (look : List Char → Bool)
    (rep : List Char) (Q : Char → Prop) (hrep : ∀ c ∈ rep, Q c) :
    ∀ (s : List Char), (∀ c ∈ s, Q c) → ∀ c ∈ subLA2 a b look rep s, Q c := by
  intro s
  induction s using subLA2.induct a b look rep with
  | case1 => intro _ c hc; cases hc
  | case2 x => intro hs c hc; exact hs c hc
  | case3 x y t h ih =>
    intro hs c hc
    rw [subLA2, if_pos h] at hc
    rcases List.mem_append.mp hc with h1 | h1
    · exact hrep c h1
    · exact ih (fun d hd => hs d
        (List.mem_cons_of_mem x (List.mem_cons_of_mem y hd))) c h1
  | case4 x y t h ih =>
    intro hs c hc
    rw [subLA2, if_neg h] at hc
    rcases List.mem_cons.mp hc with h1 | h1
    · subst h1; exact hs c (List.mem_cons_self _ _)
    · exact ih (fun d hd => hs d (List.mem_cons_of_mem x hd)) c h1

theorem all_mem_subLnsR (Q : Char → Prop) (hR : Q 'R') :
    ∀ (s : List Char), (∀ c ∈ s, Q c) → ∀ c ∈ subLnsR s, Q c := by
  intro s
  induction s using subLnsR.induct with
  | case1 => intro _ c hc; cases hc
  | case2 x => intro hs c hc; exact hs c hc
  | case3 x y t h ih =>
    intro hs c hc
    rw [subLnsR, if_pos h] at hc
    rcases List.mem_cons.mp hc with h1 | h1
    · subst h1; exact hs c (List.mem_cons_self _ _)
    · rcases List.mem_cons.mp h1 with h2 | h2
      · subst h2; exact hR
      · rcases List.mem_cons.mp h2 with h3 | h3
        · subst h3; exact hR
        · rcases List.mem_cons.mp h3 with h4 | h4
          · subst h4; exact hR
          · exact ih (fun d hd => hs d (List.mem_cons_of_mem x
              (List.mem_cons_of_mem y hd))) c h4
  | case4 x y t h ih =>
    intro hs c hc
    rw [subLnsR, if_neg h] at hc
    rcases List.mem_cons.mp hc with h1 | h1
    · subst h1; exact hs c (List.mem_cons_self _ _)
    · exact ih (fun d hd => hs d (List.mem_cons_of_mem x hd)) c h1

theorem all_mem_ySubInitial (Q : Char → Prop) (hj : Q 'ʝ') :
    ∀ (s : List Char), (∀ c ∈ s, Q c) → ∀ c ∈ ySubInitial s, Q c := by
  intro s hs c hc
  cases s with
  | nil => cases hc
  | cons x t =>
    rw [show ySubInitial (x :: t) =
      (if x = 'y' ∧ allVowLA t then 'ʝ' :: t else x :: t) from rfl] at hc
    by_cases hx : x = 'y' ∧ allVowLA t = true
    · rw [if_pos hx] at hc
      rcases List.mem_cons.mp hc with h1 | h1
      · subst h1; exact hj
      · exact hs c (List.mem_cons_of_mem _ h1)
    · rw [if_neg hx] at hc
      exact hs c hc

theorem all_mem_ySubConsAux (Q : Char → Prop) (hj : Q 'ʝ') :
    ∀ (s : List Char) (prev : Char), (∀ c ∈ s, Q c) →
      ∀ c ∈ ySubConsAux prev s, Q c := by
  intro s
  induction s with
  | nil => intro _ _ c hc; cases hc
  | cons x t ih =>
    intro prev hs c hc
    unfold ySubConsAux at hc
    by_cases hx : x = 'y' ∧ prev ∉ ALLVL ∧ allVowLA t = true
    · rw [if_pos hx] at hc
      rcases List.mem_cons.mp hc with h1 | h1
      · subst h1; exact hj
      · exact ih 'y' (fun d hd => hs d (List.mem_cons_of_mem x hd)) c h1
    · rw [if_neg hx] at hc
      rcases List.mem_cons.mp hc with h1 | h1
      · subst h1; exact hs c (List.mem_cons_self _ _)
      · exact ih x (fun d hd => hs d (List.mem_cons_of_mem x hd)) c h1

theorem all_mem_ySubCons (Q : Char → Prop) (hj : Q 'ʝ') (s : List Char)
    (hs : ∀ c ∈ s, Q c) : ∀ c ∈ ySubCons s, Q c := by
  intro c hc
  cases s with
  | nil => cases hc
  | cons x t =>
    rw [show ySubCons (x :: t) = x :: ySubConsAux x t from rfl] at hc
    rcases List.mem_cons.mp hc with h1 | h1
    · subst h1; exact hs c (List.mem_cons_self _ _)
    · exact all_mem_ySubConsAux Q hj t x
        (fun d hd => hs d (List.mem_cons_of_mem x hd)) c h1

theorem all_mem_ySubFinalAux (Q : Char → Prop) (hj : Q 'j') :
    ∀ (prev : Char) (s : List Char), (∀ c ∈ s, Q c) →
      ∀ c ∈ ySubFinalAux prev s, Q c := by
  intro prev s
  induction prev, s using ySubFinalAux.induct with
  | case1 _ => intro _ c hc; cases hc
  | case2 prev x hx =>
    intro hs c hc
    rw [show ySubFinalAux prev [x] =
      (if x = 'y' ∧ prev ∈ ALLVL then ['j'] else [x]) from rfl] at hc
    rw [if_pos hx] at hc
    rw [List.mem_singleton.mp hc]
    exact hj
  | case3 prev x hx =>
    intro hs c hc
    rw [show ySubFinalAux prev [x] =
      (if x = 'y' ∧ prev ∈ ALLVL then ['j'] else [x]) from rfl] at hc
    rw [if_neg hx] at hc
    exact hs c hc
  | case4 prev x d t ih =>
    intro hs c hc
    rw [show ySubFinalAux prev (x :: d :: t) =
      x :: ySubFinalAux x (d :: t) from rfl] at hc
    rcases List.mem_cons.mp hc with h1 | h1
    · subst h1; exact hs c (List.mem_cons_self _ _)
    · exact ih (fun e he => hs e (List.mem_cons_of_mem x he)) c h1

theorem all_mem_ySubFinal (Q : Char → Prop) (hj : Q 'j') (s : List Char)
    (hs : ∀ c ∈ s, Q c) : ∀ c ∈ ySubFinal s, Q c := by
  intro c hc
  cases s with
  | nil => cases hc
  | cons x t =>
    rw [show ySubFinal (x :: t) = x :: ySubFinalAux x t from rfl] at hc
    rcases List.mem_cons.mp hc with h1 | h1
    · subst h1; exact hs c (List.mem_cons_self _ _)
    · exact all_mem_ySubFinalAux Q hj x t
        (fun d hd => hs d (List.mem_cons_of_mem x hd)) c h1

/-- Character membership through the whole pre-rhotic rewrite chain: the
output draws its characters from the input and the replacement symbols. -/
theorem all_mem_preRhotic (Q : Char → Prop) (w : List Char)
    (hw : ∀ c ∈ w, Q c)
    (hin : ∀ c ∈ ['ʧ', 's', 'k', 'x', 'g', 'w', 'b', 'j', 'ɲ', 'ʝ'], Q c) :
    ∀ c ∈ preRhotic w, Q c := by
  have hone : ∀ (a : Char), Q a → ∀ c ∈ [a], Q c := by
    intro a ha c hc
    rw [List.mem_singleton.mp hc]
    exact ha
  have hxinit : ∀ (v : List Char), (∀ c ∈ v, Q c) →
      ∀ c ∈ (if prefixOfL ['x'] v then 's' :: v.drop 1 else v), Q c := by
    intro v hv c hc
    split at hc
    · rcases List.mem_cons.mp hc with h1 | h1
      · subst h1; exact hin 's' (by simp)
      · exact hv c (List.drop_subset 1 v h1)
    · exact hv c hc
  unfold preRhotic
  simp only [NASAL_ASSIMILATION, Bool.false_eq_true, false_and, if_false]
  refine all_mem_ySubFinal Q (hin 'j' (by simp)) _ ?_
  refine all_mem_ySubCons Q (hin 'ʝ' (by simp)) _ ?_
  refine all_mem_ySubInitial Q (hin 'ʝ' (by simp)) _ ?_
  refine all_mem_replace2 'l' 'l' _ Q (hone 'ʝ' (hin 'ʝ' (by simp))) _ ?_
  refine all_mem_replace1 'ñ' _ Q (hone 'ɲ' (hin 'ɲ' (by simp))) _ ?_
  refine all_mem_replace1 'h' _ Q (by intro c hc; cases hc) _ ?_
  refine all_mem_subLA2 'h' 'u' _ _ Q (hone 'w' (hin 'w' (by simp))) _ ?_
  refine all_mem_subLA2 'h' 'i' _ _ Q (hone 'j' (hin 'j' (by simp))) _ ?_
  refine all_mem_replace1 'v' _ Q (hone 'b' (hin 'b' (by simp))) _ ?_
  refine all_mem_subLA2 'q' 'u' _ _ Q (hone 'k' (hin 'k' (by simp))) _ ?_
  refine all_mem_replace1 'c' _ Q (hone 'k' (hin 'k' (by simp))) _ ?_
  refine all_mem_replace1 'z' _ Q (hone 's' (hin 's' (by simp))) _ ?_
  refine all_mem_subLA1 'c' _ _ Q (hone 's' (hin 's' (by simp))) _ ?_
  refine all_mem_replace2 'g' 'ü' _ Q ?_ _ ?_
  · intro c hc
    rcases List.mem_cons.mp hc with h1 | h1
    · subst h1; exact hin 'g' (by simp)
    · rw [List.mem_singleton.mp h1]; exact hin 'w' (by simp)
  refine all_mem_subLA2 'g' 'u' _ _ Q (hone 'g' (hin 'g' (by simp))) _ ?_
  refine all_mem_replace1 'j' _ Q (hone 'x' (hin 'x' (by simp))) _ ?_
  refine all_mem_subLA1 'g' _ _ Q (hone 'x' (hin 'x' (by simp))) _ ?_
  refine all_mem_replace1 'x' _ Q ?_ _ ?_
  · intro c hc
    rcases List.mem_cons.mp hc with h1 | h1
    · subst h1; exact hin 'k' (by simp)
    · rw [List.mem_singleton.mp h1]; exact hin 's' (by simp)
  refine hxinit _ ?_
  refine all_mem_replace2 'c' 'h' _ Q (hone 'ʧ' (hin 'ʧ' (by simp))) _ hw

/-! ## C7: rhotic strengthening -/

theorem r2_rr (u : List Char) :
    replace2 'r' 'r' ['R', 'R', 'R'] ('r' :: 'r' :: u) =
      'R' :: 'R' :: 'R' :: replace2 'r' 'r' ['R', 'R', 'R'] u := by
  rw [replace2, if_pos ⟨rfl, rfl⟩]
  rfl

theorem r2_cons (c : Char) (u : List Char)
    (h : ¬(c = 'r' ∧ u.head? = some 'r')) :
    replace2 'r' 'r' ['R', 'R', 'R'] (c :: u) =
      c :: replace2 'r' 'r' ['R', 'R', 'R'] u := by
  cases u with
  | nil => rfl
  | cons d u' =>
    have h' : ¬(c = 'r' ∧ d = 'r') := fun hcon => h ⟨hcon.1, by simp [hcon.2]⟩
    rw [replace2, if_neg h']

theorem lns_cons (c : Char) (t : List Char)
    (h : ¬((c = 'l' ∨ c = 'n' ∨ c = 's') ∧ t.head? = some 'r')) :
    subLnsR (c :: t) = c :: subLnsR t := by
  cases t with
  | nil => rfl
  | cons d t' =>
    have h' : ¬((c = 'l' ∨ c = 'n' ∨ c = 's') ∧ d = 'r') :=
      fun hcon => h ⟨hcon.1, by simp [hcon.2]⟩
    rw [subLnsR, if_neg h']

theorem lns_R (t : List Char) : subLnsR ('R' :: t) = 'R' :: subLnsR t :=
  lns_cons 'R' t (by simp)

theorem lns_match (c : Char) (t : List Char)
    (hc : c = 'l' ∨ c = 'n' ∨ c = 's') :
    subLnsR (c :: 'r' :: t) = c :: 'R' :: 'R' :: 'R' :: subLnsR t := by
  rw [subLnsR, if_pos ⟨hc, rfl⟩]

theorem r1_cons (a : Char) (rep : List Char) (c : Char) (t : List Char) :
    replace1 a rep (c :: t) =
      (if c = a then rep else [c]) ++ replace1 a rep t := by
  by_cases h : c = a <;> simp [replace1, h]

theorem p3_cons (x : Char) (t : List Char) (hx : x ≠ 'R') :
    replace3 'R' 'R' 'R' ['r'] (x :: t) =
      x :: replace3 'R' 'R' 'R' ['r'] t := by
  match t with
  | [] => rfl
  | [y] => rfl
  | y :: z :: t' => rw [replace3, if_neg (fun hcon => hx hcon.1)]

theorem p3_RRR (t : List Char) :
    replace3 'R' 'R' 'R' ['r'] ('R' :: 'R' :: 'R' :: t) =
      'r' :: replace3 'R' 'R' 'R' ['r'] t := by
  rw [replace3, if_pos ⟨rfl, rfl, rfl⟩]
  rfl

theorem chain_RRR (X : List Char) :
    replace3 'R' 'R' 'R' ['r'] (replace1 'r' ['ɾ']
      (subLnsR ('R' :: 'R' :: 'R' :: X))) =
    'r' :: replace3 'R' 'R' 'R' ['r'] (replace1 'r' ['ɾ'] (subLnsR X)) := by
  rw [lns_R, lns_R, lns_R, r1_cons, r1_cons, r1_cons]
  have hif : (if ('R' : Char) = 'r' then (['ɾ'] : List Char) else ['R']) =
      ['R'] := by decide
  simp only [hif, List.singleton_append]
  rw [p3_RRR]

theorem chain_RRR2 (Y : List Char) :
    replace3 'R' 'R' 'R' ['r'] (replace1 'r' ['ɾ'] ('R' :: 'R' :: 'R' :: Y)) =
      'r' :: replace3 'R' 'R' 'R' ['r'] (replace1 'r' ['ɾ'] Y) := by
  rw [r1_cons, r1_cons, r1_cons]
  have hif : (if ('R' : Char) = 'r' then (['ɾ'] : List Char) else ['R']) =
      ['R'] := by decide
  simp only [hif, List.singleton_append]
  rw [p3_RRR]

/-- Over a placeholder-free string, the four interior passes of the rhotic
block (geminate replacement, `[lns]r` strengthening, tap substitution,
placeholder resolution) compute exactly the specification's left-to-right
rhotic classification without the word-initial rule. -/
theorem rhotic_chain_eq (t : List Char) : (∀ c ∈ t, c ≠ 'R') →
    replace3 'R' 'R' 'R' ['r'] (replace1 'r' ['ɾ']
      (subLnsR (replace2 'r' 'r' ['R', 'R', 'R'] t))) = rhoticGo t := by
  induction t using rhoticGo.induct with
  | case1 => intro _; rfl
  | case2 => intro _; decide
  | case3 x hx =>
    intro hR
    have hxR : x ≠ 'R' := hR x (by simp)
    simp [replace2, subLnsR, replace1, replace3, rhoticGo, hx, hxR]
  | case4 => intro _; decide
  | case5 y hy ih1 =>
    intro hR
    have hyR : y ≠ 'R' := hR y (by simp)
    simp [replace2, subLnsR, replace1, replace3, rhoticGo, hy, hyR]
  | case6 x hx hlns =>
    intro hR
    have hxR : x ≠ 'R' := hR x (by simp)
    have hxr : x ≠ 'r' := hx
    rw [r2_cons x ['r'] (by simp [hxr])]
    rw [show replace2 'r' 'r' ['R', 'R', 'R'] ['r'] = ['r'] from rfl]
    rw [lns_match x [] hlns]
    rw [r1_cons]
    rw [if_neg hxr]
    simp only [List.singleton_append]
    rw [show subLnsR ([] : List Char) = [] from rfl]
    rw [show replace1 'r' ['ɾ'] ('R' :: 'R' :: 'R' :: []) =
      'R' :: 'R' :: 'R' :: [] from by simp [replace1]]
    rw [p3_cons x _ hxR, p3_RRR]
    simp [rhoticGo, hx, hlns, replace3]
  | case7 x hx hlns =>
    intro hR
    have hxR : x ≠ 'R' := hR x (by simp)
    simp [replace2, subLnsR, replace1, replace3, rhoticGo, hx, hxR, hlns]
  | case8 x y hx hy ih1 =>
    intro hR
    have hxR : x ≠ 'R' := hR x (by simp)
    have hyR : y ≠ 'R' := hR y (by simp)
    simp [replace2, subLnsR, replace1, replace3, rhoticGo, hx, hy, hxR, hyR]
  | case9 z t ih1 =>
    intro hR
    rw [r2_rr, chain_RRR, ih1 (fun c hc => hR c (by simp [hc]))]
    rw [show rhoticGo ('r' :: 'r' :: z :: t) = 'r' :: rhoticGo (z :: t)
      from by simp [rhoticGo]]
  | case10 y z t hy ih1 =>
    intro hR
    rw [r2_cons 'r' (y :: z :: t) (by simp [hy])]
    rw [lns_cons 'r' _ (by simp)]
    rw [r1_cons, if_pos rfl]
    simp only [List.singleton_append]
    rw [p3_cons 'ɾ' _ (by decide)]
    rw [ih1 (fun c hc => hR c (by simp [hc]))]
    rw [show rhoticGo ('r' :: y :: z :: t) = 'ɾ' :: rhoticGo (y :: z :: t)
      from by simp [rhoticGo, hy]]
  | case11 x y z t hx h ih1 =>
    intro hR
    obtain ⟨hy, hz⟩ := h
    subst hy
    subst hz
    rw [r2_cons x _ (by simp [hx])]
    rw [r2_rr]
    rw [lns_cons x _ (by simp)]
    rw [r1_cons, if_neg hx]
    simp only [List.singleton_append]
    rw [p3_cons x _ (hR x (by simp))]
    rw [chain_RRR]
    rw [ih1 (fun c hc => hR c (by simp [hc]))]
    rw [show rhoticGo (x :: 'r' :: 'r' :: t) = x :: 'r' :: rhoticGo t
      from by simp [rhoticGo, hx]]
  | case12 x z t hx hlns h ih1 =>
    intro hR
    have hz : z ≠ 'r' := fun hcon => h ⟨rfl, hcon⟩
    rw [r2_cons x _ (by simp [hx])]
    rw [r2_cons 'r' _ (by simp [hz])]
    rw [lns_match x _ hlns]
    rw [r1_cons, if_neg hx]
    simp only [List.singleton_append]
    rw [p3_cons x _ (hR x (by simp))]
    rw [chain_RRR2]
    rw [ih1 (fun c hc => hR c (by simp [hc]))]
    rw [show rhoticGo (x :: 'r' :: z :: t) = x :: 'r' :: rhoticGo (z :: t)
      from by simp [rhoticGo, hx, hz, hlns]]
  | case13 x z t hx hlns h ih1 =>
    intro hR
    have hz : z ≠ 'r' := fun hcon => h ⟨rfl, hcon⟩
    rw [r2_cons x _ (by simp [hx])]
    rw [r2_cons 'r' _ (by simp [hz])]
    rw [lns_cons x _ (by simp [hlns])]
    rw [lns_cons 'r' _ (by simp)]
    rw [r1_cons, if_neg hx]
    simp only [List.singleton_append]
    rw [r1_cons, if_pos rfl]
    simp only [List.singleton_append]
    rw [p3_cons x _ (hR x (by simp))]
    rw [p3_cons 'ɾ' _ (by decide)]
    rw [ih1 (fun c hc => hR c (by simp [hc]))]
    rw [show rhoticGo (x :: 'r' :: z :: t) = x :: 'ɾ' :: rhoticGo (z :: t)
      from by simp [rhoticGo, hx, hz, hlns]]
  | case14 x y z t hx h hy ih1 =>
    intro hR
    rw [r2_cons x _ (by simp [hy])]
    rw [r2_cons y _ (by simp [hy])]
    rw [lns_cons x _ (by simp [hy])]
    rw [← r2_cons y _ (by simp [hy])]
    rw [r1_cons, if_neg hx]
    simp only [List.singleton_append]
    rw [p3_cons x _ (hR x (by simp))]
    rw [ih1 (fun c hc => hR c (by simp [hc]))]
    rw [show rhoticGo (x :: y :: z :: t) = x :: rhoticGo (y :: z :: t)
      from by simp [rhoticGo, hx, hy]]

/-- The full rhotic block (including the word-initial placeholder rule)
equals the specification classifier on placeholder-free input. -/
theorem rhoticBlock_eq_rhoticSpec (v : List Char) (hv : ∀ c ∈ v, c ≠ 'R') :
    rhoticBlock v = rhoticSpec v := by
  cases v with
  | nil => decide
  | cons c u =>
    by_cases hc : c = 'r'
    · subst hc
      cases u with
      | nil => decide
      | cons d u' =>
        by_cases hd : d = 'r'
        · subst hd
          unfold rhoticBlock
          dsimp only
          rw [r2_rr]
          rw [if_neg (show ¬ prefixOfL ['r']
            ('R' :: 'R' :: 'R' :: replace2 'r' 'r' ['R', 'R', 'R'] u') = true
            from by simp [prefixOfL])]
          rw [chain_RRR]
          rw [rhotic_chain_eq u' (fun e he => hv e (by simp [he]))]
          rw [show rhoticSpec ('r' :: 'r' :: u') = 'r' :: rhoticGo u'
            from by simp [rhoticSpec]]
        · unfold rhoticBlock
          dsimp only
          rw [r2_cons 'r' (d :: u') (by simp [hd])]
          rw [if_pos (show prefixOfL ['r']
            ('r' :: replace2 'r' 'r' ['R', 'R', 'R'] (d :: u')) = true
            from by simp [prefixOfL])]
          rw [show ('r' :: replace2 'r' 'r' ['R', 'R', 'R'] (d :: u')).drop 1 =
            replace2 'r' 'r' ['R', 'R', 'R'] (d :: u') from rfl]
          rw [chain_RRR]
          rw [rhotic_chain_eq (d :: u')
            (fun e he => hv e (List.mem_cons_of_mem _ he))]
          rw [show rhoticSpec ('r' :: d :: u') = 'r' :: rhoticGo (d :: u')
            from by simp [rhoticSpec, hd]]
    · unfold rhoticBlock
      dsimp only
      rw [r2_cons c u (by simp [hc])]
      rw [if_neg (show ¬ prefixOfL ['r']
        (c :: replace2 'r' 'r' ['R', 'R', 'R'] u) = true
        from by simp [prefixOfL, Ne.symm hc])]
      rw [← r2_cons c u (by simp [hc])]
      rw [rhotic_chain_eq (c :: u) hv]
      rw [show rhoticSpec (c :: u) = rhoticGo (c :: u)
        from by simp [rhoticSpec, hc]]

theorem pyLower_ne_R (d : Char) : pyLower d ≠ 'R' := by
  unfold pyLower
  rcases hf : lowerPairs.find? (fun p => p.1 = d) with _ | p
  · rw [hf]
    rw [List.find?_eq_none] at hf
    have hRd := hf ('R', 'r') (by decide)
    intro hcon
    simp at hRd
    exact hRd hcon.symm
  · rw [hf]
    have hmem := List.mem_of_find?_eq_some hf
    have hall : ∀ q ∈ lowerPairs, q.2 ≠ 'R' := by decide
    exact hall p hmem

/-- C7: for every lowercase word other than the bare conjunction `y`, the
grapheme mapper's output equals the spec's rhotic classification applied
to the pre-rhotic rewrite chain: geminate `rr`, word-initial `r`, and `r`
directly after `l`, `n` or `s` become the strong trill `r`, every other
`r` becomes the weak tap `ɾ`, and the placeholder substitution corrupts
nothing. -/
theorem c7_rhotic_strengthening (w : List Char)
    (hlow : normalize_word w = w) (hy : w ≠ ['y']) :
    map_graphemes w = rhoticSpec (preRhotic w) := by
  have hR : ∀ c ∈ w, c ≠ 'R' := by
    intro c hc hcon
    subst hcon
    rw [← hlow] at hc
    obtain ⟨d, -, hd⟩ := List.mem_map.mp hc
    exact pyLower_ne_R d hd
  have hRpre := all_mem_preRhotic (fun c => c ≠ 'R') w hR (by decide)
  unfold map_graphemes
  dsimp only
  simp only [NASAL_ASSIMILATION, Bool.false_eq_true, if_false]
  rw [hlow]
  rw [if_neg hy]
  exact rhoticBlock_eq_rhoticSpec _ hRpre

/-- C7, witness: on `perro` (geminate) and by extension every listed
context the classification agrees; `perro` maps to `pero` with a strong
trill. -/
theorem c7_witness :
    normalize_word ['p', 'e', 'r', 'r', 'o'] = ['p', 'e', 'r', 'r', 'o'] ∧
    ['p', 'e', 'r', 'r', 'o'] ≠ ['y'] ∧
    map_graphemes ['p', 'e', 'r', 'r', 'o'] =
      rhoticSpec (preRhotic ['p', 'e', 'r', 'r', 'o']) :=
  ⟨by decide, by decide,
   c7_rhotic_strengthening ['p', 'e', 'r', 'r', 'o'] (by decide) (by decide)⟩

/-! ## C9: punctuation isolation -/

theorem chain_dropWhile {R : Char → Char → Prop} (p : Char → Bool) :
    ∀ (l : List Char), List.Chain' R l → List.Chain' R (l.dropWhile p) := by
  intro l
  induction l with
  | nil => intro _; simp
  | cons x t ih =>
    intro h
    rw [List.dropWhile_cons]
    split
    · exact ih h.tail
    · exact h

theorem chain_pyStripP {R : Char → Char → Prop} (p : Char → Bool)
    (l : List Char) (h : List.Chain' R l) : List.Chain' R (pyStripP p l) := by
  unfold pyStripP dropTrailing
  have h1 := chain_dropWhile p l h
  have h2 : List.Chain' (flip R) (l.dropWhile p).reverse := by
    rw [List.chain'_reverse]
    exact h1
  have h3 := chain_dropWhile p _ h2
  rw [List.chain'_reverse]
  exact h3

theorem chain_of_elemprop {R : Char → Char → Prop} :
    ∀ (t : List Char), (∀ a ∈ t, ∀ b ∈ t, R a b) → List.Chain' R t := by
  intro t
  induction t with
  | nil => intro _; simp
  | cons x r ih =>
    intro h
    rw [List.chain'_cons']
    constructor
    · intro y hy
      apply h x (List.mem_cons_self _ _) y
      cases r with
      | nil => simp at hy
      | cons z r' =>
        simp at hy
        subst hy
        exact List.mem_cons_of_mem x (List.mem_cons_self _ _)
    · exact ih (fun a ha b hb =>
        h a (List.mem_cons_of_mem x ha) b (List.mem_cons_of_mem x hb))

theorem chain_joinSpace {R : Char → Char → Prop}
    (hsp1 : ∀ y, R ' ' y) (hsp2 : ∀ x, R x ' ') :
    ∀ (ts : List (List Char)), (∀ t ∈ ts, List.Chain' R t) →
      List.Chain' R (joinSpace ts) := by
  intro ts
  induction ts with
  | nil => intro _; simp [joinSpace]
  | cons t rest ih =>
    intro h
    cases rest with
    | nil => exact h t (List.mem_cons_self _ _)
    | cons t2 rest2 =>
      rw [show joinSpace (t :: t2 :: rest2) =
        t ++ ' ' :: joinSpace (t2 :: rest2) from rfl]
      rw [List.chain'_append]
      refine ⟨h t (List.mem_cons_self _ _), ?_, ?_⟩
      · rw [List.chain'_cons']
        exact ⟨fun y _ => hsp1 y,
          ih (fun u hu => h u (List.mem_cons_of_mem t hu))⟩
      · intro x _ y hy
        simp at hy
        subst hy
        exact hsp2 x

theorem surroundPunct_head (t : List Char) (c : Char)
    (h : (surroundPunct t).head? = some c) : c = ' ' ∨ c ∉ PUNCTL := by
  cases t with
  | nil => simp [surroundPunct] at h
  | cons x r =>
    unfold surroundPunct at h
    by_cases hx : x ∈ PUNCTL
    · rw [if_pos hx] at h
      simp at h
      exact Or.inl h.symm
    · rw [if_neg hx] at h
      simp at h
      rw [← h]
      exact Or.inr hx

theorem chain_surroundPunct (t : List Char) :
    List.Chain' IsoW (surroundPunct t) := by
  induction t with
  | nil => simp [surroundPunct]
  | cons x r ih =>
    unfold surroundPunct
    by_cases hx : x ∈ PUNCTL
    · rw [if_pos hx]
      rw [show ([' ', x, ' '] ++ surroundPunct r) =
        ' ' :: x :: ' ' :: surroundPunct r from rfl]
      rw [List.chain'_cons', List.chain'_cons', List.chain'_cons']
      refine ⟨?_, ?_, ?_, ih⟩
      · intro y hy
        simp at hy
        subst hy
        exact ⟨fun hcon => absurd hcon (by decide), fun _ => by decide⟩
      · intro y hy
        simp at hy
        subst hy
        exact ⟨fun _ => by decide, fun hcon => absurd hcon (by decide)⟩
      · intro y _
        exact ⟨fun hcon => absurd hcon (by decide), fun _ => by decide⟩
    · rw [if_neg hx]
      rw [show ([x] ++ surroundPunct r) = x :: surroundPunct r from rfl]
      rw [List.chain'_cons']
      refine ⟨?_, ih⟩
      intro y hy
      rcases surroundPunct_head r y hy with h1 | h1
      · subst h1
        exact ⟨fun _ => by decide, fun hcon => absurd hcon (by decide)⟩
      · exact ⟨fun _hp => absurd _hp hx, fun hyp => absurd hyp h1⟩

theorem ellipsis_noop (rep : List Char) :
    ∀ (s : List Char), List.Chain' IsoW s →
      replace3 '.' '.' '.' rep s = s := by
  intro s
  induction s using replace3.induct '.' '.' '.' rep with
  | case1 => intro _; rfl
  | case2 x => intro _; rfl
  | case3 x y => intro _; rfl
  | case4 x y z t h ih =>
    intro hch
    obtain ⟨hx, hy, hz⟩ := h
    subst hx
    subst hy
    subst hz
    exfalso
    have h1 : IsoW '.' '.' := List.chain'_cons.mp hch |>.1
    have h2 := h1.1 (by decide)
    exact absurd h2 (by decide)
  | case5 x y z t h ih =>
    intro hch
    rw [replace3, if_neg h]
    rw [ih hch.tail]

theorem collapseWsAux_head (s : List Char) (c : Char)
    (h : (collapseWsAux false s).head? = some c) :
    c = ' ' ∨ s.head? = some c := by
  cases s with
  | nil => simp [collapseWsAux] at h
  | cons x t =>
    unfold collapseWsAux at h
    by_cases hx : x ∈ wsChars
    · rw [if_pos hx] at h
      simp at h
      exact Or.inl h.symm
    · rw [if_neg hx] at h
      simp at h
      simp [h]

theorem chain_collapseWsAux :
    ∀ (s : List Char) (b : Bool), List.Chain' IsoW s →
      List.Chain' IsoW (collapseWsAux b s) := by
  intro s
  induction s with
  | nil => intro b _; simp [collapseWsAux]
  | cons x t ih =>
    intro b h
    unfold collapseWsAux
    by_cases hx : x ∈ wsChars
    · rw [if_pos hx]
      cases b with
      | true => exact ih true h.tail
      | false =>
        simp only [Bool.false_eq_true, if_false]
        rw [List.chain'_cons']
        refine ⟨?_, ih true h.tail⟩
        intro y _
        exact ⟨fun hcon => absurd hcon (by decide), fun _ => by decide⟩
    · rw [if_neg hx]
      rw [List.chain'_cons']
      refine ⟨?_, ih false h.tail⟩
      intro y hy
      rcases collapseWsAux_head t y hy with h1 | h1
      · subst h1
        exact ⟨fun _ => by decide, fun hcon => absurd hcon (by decide)⟩
      · have h2 := List.chain'_cons'.mp h |>.1 y h1
        exact h2

theorem collapseWsAux_ws_eq_space :
    ∀ (s : List Char) (b : Bool) (c : Char), c ∈ collapseWsAux b s →
      c ∈ wsChars → c = ' ' := by
  intro s
  induction s with
  | nil => intro b c hc; cases hc
  | cons x t ih =>
    intro b c hc hcw
    unfold collapseWsAux at hc
    by_cases hx : x ∈ wsChars
    · rw [if_pos hx] at hc
      cases b with
      | true => exact ih true c hc hcw
      | false =>
        simp only [Bool.false_eq_true, if_false] at hc
        rcases List.mem_cons.mp hc with h1 | h1
        · exact h1
        · exact ih true c h1 hcw
    · rw [if_neg hx] at hc
      rcases List.mem_cons.mp hc with h1 | h1
      · subst h1
        exact absurd hcw hx
      · exact ih false c h1 hcw

theorem space_punct_facts (t : List Char) :
    List.Chain' IsoW (space_punct t) ∧
      ∀ c ∈ space_punct t, c ∈ wsChars → c = ' ' := by
  unfold space_punct collapseWs
  rw [ellipsis_noop _ _ (chain_surroundPunct t)]
  constructor
  · exact chain_pyStripP _ _
      (chain_collapseWsAux (surroundPunct t) false (chain_surroundPunct t))
  · intro c hc hcw
    exact collapseWsAux_ws_eq_space (surroundPunct t) false c
      (mem_pyStripP _ _ c hc) hcw

theorem head_pySplit (t : List Char) (h0 : List Char) (r : List (List Char))
    (h : pySplitSpace t = h0 :: r) : h0 = [] ∨ t.head? = h0.head? := by
  cases t with
  | nil =>
    rw [show pySplitSpace [] = [[]] from rfl] at h
    exact Or.inl (List.cons.inj h).1.symm
  | cons y t' =>
    unfold pySplitSpace at h
    by_cases hy : y = ' '
    · rw [if_pos hy] at h
      exact Or.inl (List.cons.inj h).1.symm
    · rw [if_neg hy] at h
      rcases hps : pySplitSpace t' with _ | ⟨g, r'⟩
      · rw [hps] at h
        rw [← (List.cons.inj h).1]
        simp
      · rw [hps] at h
        rw [← (List.cons.inj h).1]
        simp

theorem segs_unmixed : ∀ (s : List Char), List.Chain' IsoW s →
    (∀ c ∈ s, c ∈ wsChars → c = ' ') →
    ∀ seg ∈ pySplitSpace s,
      (∀ c ∈ seg, c ∈ PUNCTL) ∨ (∀ c ∈ seg, c ∉ PUNCTL) := by
  intro s
  induction s with
  | nil =>
    intro _ _ seg hseg
    rw [show pySplitSpace [] = [[]] from rfl] at hseg
    rw [List.mem_singleton.mp hseg]
    right
    intro c hc
    cases hc
  | cons x t ih =>
    intro hch hws seg hseg
    have hwst : ∀ c ∈ t, c ∈ wsChars → c = ' ' :=
      fun c hc => hws c (List.mem_cons_of_mem x hc)
    unfold pySplitSpace at hseg
    by_cases hx : x = ' '
    · rw [if_pos hx] at hseg
      rcases List.mem_cons.mp hseg with h1 | h1
      · rw [h1]
        right
        intro c hc
        cases hc
      · exact ih hch.tail hwst seg h1
    · rw [if_neg hx] at hseg
      rcases hps : pySplitSpace t with _ | ⟨g, r⟩
      · exact absurd hps (by
          intro hcon
          have : pySplitSpace t ≠ [] := by
            cases t with
            | nil => simp [pySplitSpace]
            | cons y t2 =>
              unfold pySplitSpace
              by_cases hy : y = ' '
              · simp [hy]
              · rw [if_neg hy]
                rcases pySplitSpace t2 with _ | ⟨a, b⟩ <;> simp
          exact this hcon)
      · rw [hps] at hseg
        rcases List.mem_cons.mp hseg with h1 | h1
        · subst h1
          have hg : (∀ c ∈ g, c ∈ PUNCTL) ∨ (∀ c ∈ g, c ∉ PUNCTL) :=
            ih hch.tail hwst g (by rw [hps]; exact List.mem_cons_self _ _)
          by_cases hxp : x ∈ PUNCTL
          · have hgnil : g = [] := by
              cases t with
              | nil =>
                rw [show pySplitSpace [] = [[]] from rfl] at hps
                exact ((List.cons.inj hps).1).symm
              | cons y t' =>
                have hxy : IsoW x y := (List.chain'_cons.mp hch).1
                have hyw : y ∈ wsChars := hxy.1 hxp
                have hysp : y = ' ' :=
                  hws y (List.mem_cons_of_mem x (List.mem_cons_self y t')) hyw
                subst hysp
                rw [show pySplitSpace (' ' :: t') = [] :: pySplitSpace t'
                  from rfl] at hps
                exact ((List.cons.inj hps).1).symm
            subst hgnil
            left
            intro c hc
            rw [List.mem_singleton.mp hc]
            exact hxp
          · right
            intro c hc
            rcases List.mem_cons.mp hc with h2 | h2
            · rw [h2]; exact hxp
            · rcases hg with hgall | hgfree
              · exfalso
                rcases head_pySplit t g r hps with hnil | hhead
                · subst hnil; cases h2
                · cases g with
                  | nil => cases h2
                  | cons c0 g' =>
                    cases t with
                    | nil => simp at hhead
                    | cons y t' =>
                      simp only [List.head?_cons] at hhead
                      have hyc0 : y = c0 := by simpa using hhead
                      subst hyc0
                      have hxy : IsoW x y := (List.chain'_cons.mp hch).1
                      have hxw : x ∈ wsChars :=
                        hxy.2 (hgall y (List.mem_cons_self y g'))
                      exact hx (hws x (List.mem_cons_self x _) hxw)
              · exact hgfree c h2
        · exact ih hch.tail hwst seg (by rw [hps]; exact List.mem_cons_of_mem g h1)

theorem acuteMap_cases (d : Char) : acuteMap d = d ∨ acuteMap d ∈ VOWL := by
  unfold acuteMap
  split_ifs <;> first | (left; rfl) | (right; decide)

theorem pyLower_cases (d : Char) :
    pyLower d = d ∨ pyLower d ∈ lowerPairs.map Prod.snd := by
  unfold pyLower
  rcases hf : lowerPairs.find? (fun p => p.1 = d) with _ | p
  · rw [hf]
    exact Or.inl rfl
  · rw [hf]
    exact Or.inr (List.mem_map.mpr ⟨p, List.mem_of_find?_eq_some hf, rfl⟩)

theorem all_mem_rhoticBlock (Q : Char → Prop) (hR : Q 'R') (hr : Q 'r')
    (htap : Q 'ɾ') (v : List Char) (hv : ∀ c ∈ v, Q c) :
    ∀ c ∈ rhoticBlock v, Q c := by
  unfold rhoticBlock
  dsimp only
  have hX : ∀ c ∈ replace2 'r' 'r' ['R', 'R', 'R'] v, Q c := by
    refine all_mem_replace2 'r' 'r' _ Q ?_ _ hv
    intro c hc
    rcases List.mem_cons.mp hc with h1 | h1
    · rw [h1]; exact hR
    · rcases List.mem_cons.mp h1 with h2 | h2
      · rw [h2]; exact hR
      · rw [List.mem_singleton.mp h2]; exact hR
  refine all_mem_replace3 'R' 'R' 'R' ['r'] Q
    (by intro c hc; rw [List.mem_singleton.mp hc]; exact hr) _ ?_
  refine all_mem_replace1 'r' ['ɾ'] Q
    (by intro c hc; rw [List.mem_singleton.mp hc]; exact htap) _ ?_
  refine all_mem_subLnsR Q hR _ ?_
  intro c hc
  split at hc
  · rcases List.mem_cons.mp hc with h1 | h1
    · rw [h1]; exact hR
    · rcases List.mem_cons.mp h1 with h2 | h2
      · rw [h2]; exact hR
      · rcases List.mem_cons.mp h2 with h3 | h3
        · rw [h3]; exact hR
        · exact hX c (List.drop_subset 1 _ h3)
  · exact hX c hc

theorem mapGraphemes_nonpunct (tok : List Char)
    (htok : ∀ c ∈ tok, c ∉ PUNCTL) :
    ∀ c ∈ map_graphemes tok, c ∉ PUNCTL := by
  have hlowseconds : ∀ c ∈ lowerPairs.map Prod.snd, c ∉ PUNCTL := by decide
  have hlow : ∀ c ∈ normalize_word tok, c ∉ PUNCTL := by
    intro c hc
    obtain ⟨d, hd, rfl⟩ := List.mem_map.mp hc
    rcases pyLower_cases d with h1 | h1
    · rw [h1]; exact htok d hd
    · exact hlowseconds _ h1
  unfold map_graphemes
  dsimp only
  simp only [NASAL_ASSIMILATION, Bool.false_eq_true, if_false]
  intro c hc
  split at hc
  · rw [List.mem_singleton.mp hc]
    decide
  · refine all_mem_rhoticBlock (fun c => c ∉ PUNCTL) (by decide) (by decide)
      (by decide) _ ?_ c hc
    refine all_mem_preRhotic (fun c => c ∉ PUNCTL) _ hlow (by decide)

theorem all_mem_accentFirstPlain (Q : Char → Prop)
    (hacc : ∀ c ∈ ACCL, Q c) (p : List Char) (s e : Nat)
    (hp : ∀ c ∈ p, Q c) : ∀ c ∈ accentFirstPlain p s e, Q c := by
  unfold accentFirstPlain
  rcases hf : (List.range' s (e - s)).find?
      (fun j => p.getD j ' ' ∈ VOWL) with _ | j
  · exact hp
  · intro c hc
    have hj := List.find?_some hf
    have hjv : p.getD j ' ' ∈ VOWL := by simpa using hj
    have haccof : ∀ d ∈ VOWL, accentOf d ∈ ACCL := by decide
    rcases List.mem_append.mp hc with h1 | h1
    · rcases List.mem_append.mp h1 with h2 | h2
      · exact hp c (List.take_subset _ _ h2)
      · rw [List.mem_singleton.mp h2]
        exact hacc _ (haccof _ hjv)
    · exact hp c (List.drop_subset _ _ h1)

theorem all_mem_add_stress (Q : Char → Prop) (hacc : ∀ c ∈ ACCL, Q c)
    (p : List Char) (hp : ∀ c ∈ p, Q c) :
    ∀ c ∈ add_stress_if_needed p, Q c := by
  unfold add_stress_if_needed
  intro c hc
  split at hc
  · exact hp c hc
  · dsimp only at hc
    split at hc
    · exact hp c hc
    · split at hc
      · exact all_mem_accentFirstPlain Q hacc p _ _ hp c hc
      · exact hp c hc

theorem apply_glides_eq_id (p : List Char) : apply_glides p = p := by
  unfold apply_glides
  rw [if_pos (by decide)]

theorem insert_stress_nonpunct (p : List Char)
    (hp : ∀ c ∈ p, c ∉ PUNCTL) :
    ∀ c ∈ insert_stress_marker_and_clean p, c ∉ PUNCTL := by
  have hacute : ∀ d, d ∉ PUNCTL → acuteMap d ∉ PUNCTL := by
    intro d hd
    rcases acuteMap_cases d with h1 | h1
    · rw [h1]; exact hd
    · have : ∀ v ∈ VOWL, v ∉ PUNCTL := by decide
      exact this _ h1
  unfold insert_stress_marker_and_clean
  rcases hf : firstAccIdx p with _ | pos
  · intro c hc
    obtain ⟨d, hd, rfl⟩ := List.mem_map.mp hc
    exact hacute d (hp d hd)
  · dsimp only
    intro c hc
    obtain ⟨hlen, -, -⟩ := firstAccIdx_some_facts p pos hf
    obtain ⟨d, hd, rfl⟩ := List.mem_map.mp hc
    rcases List.mem_append.mp hd with h1 | h1
    · rcases List.mem_append.mp h1 with h2 | h2
      · rcases List.mem_append.mp h2 with h3 | h3
        · rcases List.mem_append.mp h3 with h4 | h4
          · exact hacute d (hp d (List.take_subset _ _ h4))
          · rw [List.mem_singleton.mp h4]
            decide
        · exact hacute d (hp d
            (List.drop_subset _ _ (List.take_subset _ _ h3)))
      · rw [List.mem_singleton.mp h2]
        apply hacute
        apply hacute
        apply hp
        rw [List.getD_eq_getElem p ' ' hlen]
        exact List.getElem_mem hlen
    · exact hacute d (hp d (List.drop_subset _ _ h1))

theorem processToks_unmixed (ts : List (List Char))
    (hts : ∀ seg ∈ ts, (∀ c ∈ seg, c ∈ PUNCTL) ∨ (∀ c ∈ seg, c ∉ PUNCTL)) :
    ∀ t ∈ processToks ts,
      (∀ c ∈ t, c ∈ PUNCTL) ∨ (∀ c ∈ t, c ∉ PUNCTL) := by
  induction ts with
  | nil => intro t ht; cases ht
  | cons t0 rest ih =>
    intro t ht
    have hrest := fun seg hs => hts seg (List.mem_cons_of_mem t0 hs)
    unfold processToks at ht
    by_cases h0 : t0.isEmpty
    · rw [if_pos h0] at ht
      exact ih hrest t ht
    · rw [if_neg h0] at ht
      by_cases h1 : t0.all (fun c => c ∈ PUNCTL)
      · rw [if_pos h1] at ht
        rcases List.mem_cons.mp ht with h2 | h2
        · subst h2
          left
          intro c hc
          simpa using List.all_eq_true.mp h1 c hc
        · exact ih hrest t h2
      · rw [if_neg h1] at ht
        rcases List.mem_cons.mp ht with h2 | h2
        · subst h2
          right
          have ht0 : ∀ c ∈ t0, c ∉ PUNCTL := by
            rcases hts t0 (List.mem_cons_self _ _) with hall | hfree
            · exact absurd (List.all_eq_true.mpr
                (fun c hc => by simpa using hall c hc)) h1
            · exact hfree
          intro c hc
          rw [apply_glides_eq_id] at hc
          exact insert_stress_nonpunct _
            (all_mem_add_stress (fun c => c ∉ PUNCTL) (by decide) _
              (mapGraphemes_nonpunct t0 ht0)) c hc
        · exact ih hrest t h2

/-- C9: for every input string and every alphabet predicate under which
the space character and the punctuation characters are not alphabetic, no
punctuation character of the fixed set is immediately adjacent to an
alphabetic character anywhere in the transcription `g2p text`. -/
theorem c9_punct_isolation (text : List Char) (alpha : Char → Bool)
    (hsp : alpha ' ' = false) (hpa : ∀ c ∈ PUNCTL, alpha c = false) :
    List.Chain' (punctSafe alpha) (g2p text) := by
  have hsp1 : ∀ y, punctSafe alpha ' ' y := fun y =>
    ⟨fun hcon => absurd hcon.1 (by decide),
     fun hcon => absurd hcon.1 (by simp [hsp])⟩
  have hsp2 : ∀ x, punctSafe alpha x ' ' := fun x =>
    ⟨fun hcon => absurd hcon.2 (by simp [hsp]),
     fun hcon => absurd hcon.2 (by decide)⟩
  have hslpair : punctSafe alpha '/' '/' :=
    ⟨fun hcon => absurd hcon.1 (by decide),
     fun hcon => absurd hcon.2 (by decide)⟩
  have hResult : List.Chain' (punctSafe alpha) (g2pResult text) := by
    unfold g2pResult
    apply chain_pyStripP
    apply chain_joinSpace hsp1 hsp2
    intro t ht
    have hum := processToks_unmixed _
      (segs_unmixed _ (space_punct_facts (normalizeNFC text)).1
        (space_punct_facts (normalizeNFC text)).2) t ht
    apply chain_of_elemprop
    intro a ha b hb
    rcases hum with hall | hfree
    · exact ⟨fun hcon => absurd hcon.2 (by simp [hpa b (hall b hb)]),
             fun hcon => absurd hcon.1 (by simp [hpa a (hall a ha)])⟩
    · exact ⟨fun hcon => absurd hcon.1 (hfree a ha),
             fun hcon => absurd hcon.2 (hfree b hb)⟩
  unfold g2p
  by_cases h0 : text = []
  · rw [if_pos h0]
    rw [List.chain'_cons']
    refine ⟨?_, by simp⟩
    intro y hy
    simp at hy
    subst hy
    exact hslpair
  · rw [if_neg h0]
    dsimp only
    by_cases h1 : g2pResult text = []
    · rw [if_pos h1]
      rw [List.chain'_cons']
      refine ⟨?_, by simp⟩
      intro y hy
      simp at hy
      subst hy
      exact hslpair
    · rw [if_neg h1]
      rw [List.chain'_append]
      refine ⟨?_, ?_, ?_⟩
      · rw [List.chain'_cons']
        refine ⟨?_, ?_⟩
        · intro y hy
          simp at hy
          subst hy
          exact ⟨fun hcon => absurd hcon.1 (by decide),
                 fun hcon => absurd hcon.2 (by decide)⟩
        · rw [List.chain'_cons']
          exact ⟨fun y _ => hsp1 y, hResult⟩
      · rw [List.chain'_pair]
        exact hsp1 '/'
      · intro x _ y hy
        simp at hy
        subst hy
        exact hsp2 x

set_option maxHeartbeats 2000000 in
/-- C9, witness: in the transcription of `¡hola!` the punctuation marks
are isolated from the letters (with ASCII `Char.isAlpha` as the
alphabetic predicate). -/
theorem c9_witness :
    Char.isAlpha ' ' = false ∧ (∀ c ∈ PUNCTL, Char.isAlpha c = false) ∧
      List.Chain' (punctSafe Char.isAlpha)
        (g2p ['¡', 'h', 'o', 'l', 'a', '!']) :=
  ⟨by decide, by decide,
   c9_punct_isolation ['¡', 'h', 'o', 'l', 'a', '!'] Char.isAlpha
     (by decide) (by decide)⟩
